import Mathlib

/-
  Verification development for the py-northward migration runner
  (src/src/migrate.py).  The Python source is shallowly embedded:
  pure string manipulation (os.path helpers, str.replace, str.strip,
  sorting) is modelled by executable Lean functions, and the stateful
  Migrator (up / down / migrate / rollback) is modelled by explicit
  state passing over the applied-identifier record together with an
  event trace recording unit-body executions and storage writes.
-/

namespace Northward

/-! ## Python string primitives -/

/-- Lexicographic (code-point) strict order on character lists, as used by
Python string comparison. -/
def chLt : List Char → List Char → Bool
  | [], [] => false
  | [], _ :: _ => true
  | _ :: _, [] => false
  | a :: as, b :: bs => if a < b then true else if b < a then false else chLt as bs

/-- Python string strict order. -/
def strLt (a b : String) : Bool := chLt a.data b.data

/-- Python string non-strict order (used by sorted). -/
def strLe (a b : String) : Bool := !(strLt b a)

/-- Stable ascending insertion into a sorted list: the new element goes
after every strictly smaller element, before equal and larger ones (the
placement Python's stable sort gives an earlier-listed element). -/
def insertSorted (x : String) : List String → List String
  | [] => [x]
  | y :: ys => if strLt y x then y :: insertSorted x ys else x :: y :: ys

/-- Python sorted(...) on strings: stable ascending sort by code point. -/
def pySorted (l : List String) : List String := l.foldr insertSorted []

/-- Stable descending insertion (Python sorted with reverse=True). -/
def insertSortedDesc (x : String) : List String → List String
  | [] => [x]
  | y :: ys => if strLt x y then y :: insertSortedDesc x ys else x :: y :: ys

/-- Python sorted(..., reverse=True) on strings. -/
def pySortedDesc (l : List String) : List String := l.foldr insertSortedDesc []

/-- Auxiliary for pyReplace: replaces every non-overlapping occurrence of
pat (scanning left to right) by rep, as Python str.replace does.  The
fuel argument (instantiated with the string length, an upper bound on the
number of steps) only makes the recursion structural. -/
def replaceAux (pat rep : List Char) : Nat → List Char → List Char
  | _, [] => []
  | 0, l => l
  | fuel + 1, c :: rest =>
    if pat.isPrefixOf (c :: rest) ∧ pat ≠ [] then
      rep ++ replaceAux pat rep fuel ((c :: rest).drop pat.length)
    else
      c :: replaceAux pat rep fuel rest

/-- Python str.replace(old, new) (all occurrences). -/
def pyReplace (s old new : String) : String :=
  if old.data = [] then ⟨new.data ++ s.data.flatMap (fun c => c :: new.data)⟩
  else ⟨replaceAux old.data new.data s.data.length s.data⟩

/-- Python str.strip(c) for a single-character strip set. -/
def pyStrip (c : Char) (s : String) : String :=
  ⟨((s.data.dropWhile (· == c)).reverse.dropWhile (· == c)).reverse⟩

/-- posixpath.basename: the part of the path after the last slash. -/
def basename (p : String) : String :=
  ⟨(p.data.reverse.takeWhile (· ≠ '/')).reverse⟩

/-- Python str.startswith. -/
def strStartsWith (s pre : String) : Bool := pre.data.isPrefixOf s.data

/-- Python str.endswith. -/
def strEndsWith (s post : String) : Bool := post.data.isSuffixOf s.data

/-- posixpath.join for two components (as used in the source: the second
component is taken whole if absolute, otherwise appended after a slash). -/
def pjoin (d f : String) : String :=
  if strStartsWith f "/" then f
  else if d = "" then f
  else if strEndsWith d "/" then d ++ f
  else d ++ "/" ++ f

/-- Python str.split(sep) for a single-character separator: the segments
between occurrences, empties retained. -/
def splitChar (sep : Char) : List Char → List (List Char)
  | [] => [[]]
  | c :: rest =>
    match splitChar sep rest with
    | [] => [[]]
    | seg :: segs => if c = sep then [] :: seg :: segs else (c :: seg) :: segs

/-- Python str.split(sep) on strings. -/
def pySplit (s : String) (sep : Char) : List String :=
  (splitChar sep s.data).map (fun l => ⟨l⟩)

/-- sep.join for the path separator. -/
def joinSlash : List String → String
  | [] => ""
  | [x] => x
  | x :: rest => x ++ "/" ++ joinSlash rest

/-- Split an absolute normalized path into its nonempty components. -/
def splitSlash (s : String) : List String :=
  (pySplit s '/').filter (· ≠ "")

/-- Length of the longest common prefix of two component lists. -/
def commonLen : List String → List String → Nat
  | a :: as, b :: bs => if a = b then commonLen as bs + 1 else 0
  | _, _ => 0

/-- posixpath.relpath(path, start) for already-normalized absolute inputs
(no dot components), which is the only way the source invokes it: drop the
common component prefix and climb with dot-dot entries. -/
def relpath (path start : String) : String :=
  let pl := splitSlash path
  let sl := splitSlash start
  let i := commonLen sl pl
  let rel := List.replicate (sl.length - i) ".." ++ pl.drop i
  if rel = [] then "." else joinSlash rel

/-- The leading 14-digit timestamp of a migration name, computed the way
the source does: name.split(underscore)[0]. -/
def fileTs (name : String) : String :=
  (pySplit name '_').headD ""

/-- MigratorHelpers._is_migration_file: the name matches
fourteen digits, an underscore, any (newline-free) middle, and a .py
suffix. -/
def isMigrationFile (f : String) : Bool :=
  decide (18 ≤ f.data.length) && (f.data.take 14).all (·.isDigit)
    && (f.data.drop 14).headD ' ' == '_' && strEndsWith f ".py"

/-- Numeric value of a decimal digit string (the chronological reading of
a 14-digit timestamp). -/
def digitsVal : List Char → Nat
  | [] => 0
  | c :: cs => (c.toNat - 48) * 10 ^ cs.length + digitsVal cs

/-- Numeric value of a timestamp string. -/
def tsVal (s : String) : Nat := digitsVal s.data

/-- Python list slicing l[k:] (k may be negative, counting from the end). -/
def pySliceFrom (l : List String) (k : Int) : List String :=
  if k < 0 then l.drop (l.length - (-k).toNat) else l.drop k.toNat

/-! ## Data model: scripts, events, configuration -/

/-- The source content of a migration script file: its optional
dependencies list (absent when the module declares no dependencies
attribute) and the opaque behaviour of its up and down bodies, abstracted
to whether each raises when invoked. -/
structure ScriptSrc where
  dependencies : Option (List String)
  upRaises : Bool
  downRaises : Bool
deriving DecidableEq, Repr

/-- A loaded migration script (MigratorHelpers._load_script): the module
plus the two identity fields the loader injects.  The path field records
where it was loaded from. -/
structure Script where
  src : ScriptSrc
  path : String
  filename : String
  dependency_path : String
deriving DecidableEq, Repr

/-- Errors: fuel exhaustion of the embedded recursion, FileNotFoundError,
a raising up or down body, dict KeyError, NotADirectoryError, and the two
ValueError cases of discovery. -/
inductive Err where
  | fuel
  | notFound (path : String)
  | upFailed (filename : String)
  | downFailed (filename : String)
  | keyError (key : String)
  | notADirectory
  | dupName (file : String)
  | dupTimestamp (file : String)
deriving DecidableEq, Repr

/-- Outcome of a run: normal return or a propagating exception. -/
inductive Outcome where
  | ok
  | error (e : Err)
deriving DecidableEq, Repr

/-- Observable events of a run: a unit up body executing, a unit down
body executing, a storage store call, a storage delete call, and the
logged error for a blocked dependency. -/
inductive Ev where
  | runUp (s : Script)
  | runDown (s : Script)
  | store (id : String)
  | delete (id : String)
  | blocked (filename : String) (dep : String)
deriving DecidableEq, Repr

/-- Result of a stateful run: final applied-identifier record, the events
emitted by this call, and the outcome. -/
structure RunRes where
  st : List String
  tr : List Ev
  out : Outcome
deriving DecidableEq, Repr

/-- Result of the dependency loop inside Migrator.up: as RunRes, plus
whether control proceeds to the execution phase (false models the early
return inside the loop). -/
structure DepsRes where
  st : List String
  tr : List Ev
  out : Outcome
  proceed : Bool
deriving DecidableEq, Repr

/-- Migrator configuration (constructor arguments) together with the
script-loader backend: env maps a file path to the script source found
there, if any. -/
structure Config where
  directory : String
  dryRun : Bool
  migrateDependencies : Bool
  env : String → Option ScriptSrc

/-- Applied-state record membership (has_run of both storage engines is
key membership). -/
def hasId (st : List String) (id : String) : Bool := st.contains id

/-- Applied-state store (dict put / put_item: insert the key if absent). -/
def storeId (st : List String) (id : String) : List String :=
  if st.contains id then st else st ++ [id]

/-! ## Script loading and dependency resolution -/

/-- MigratorHelpers._load_script: fails with FileNotFoundError when the
path has no file; otherwise returns the module with
filename = path.replace(py-suffix, empty).replace(directory, empty).strip(slash)
and dependency_path = relpath(path, directory).replace(py-suffix, empty). -/
def loadScript (cfg : Config) (path : String) : Except Err Script :=
  match cfg.env path with
  | none => .error (.notFound path)
  | some src =>
    .ok { src := src
          path := path
          filename := pyStrip '/' (pyReplace (pyReplace path ".py" "") cfg.directory "")
          dependency_path := pyReplace (relpath path cfg.directory) ".py" "" }

/-- MigratorHelpers._resolve_dependency_path: a three-part reference
module/migrations/name maps to directory/module/migrations/name.py, any
other form to directory/reference.py. -/
def resolveDependencyPath (cfg : Config) (dep : String) : String :=
  match pySplit dep '/' with
  | [m, mid, name] =>
    if mid = "migrations" then pjoin (pjoin (pjoin cfg.directory m) mid) (name ++ ".py")
    else pjoin cfg.directory (dep ++ ".py")
  | _ => pjoin cfg.directory (dep ++ ".py")

/-! ## Migrator.up / Migrator.down -/

/-- The dependency loop of Migrator.up, parametrized by the recursive
call (upFn).  For each reference: resolve, load (FileNotFoundError
propagates), skip it when its dependency_path is recorded, otherwise
either log and return early (migrate_dependencies false) or reload and
recurse. -/
def depsLoop (cfg : Config) (selfName : String) (upFn : List String → Script → RunRes) :
    List String → List String → DepsRes
  | st, [] => ⟨st, [], .ok, true⟩
  | st, dep :: rest =>
    match loadScript cfg (resolveDependencyPath cfg dep) with
    | .error e => ⟨st, [], .error e, false⟩
    | .ok dscript =>
      if st.contains dscript.dependency_path then
        depsLoop cfg selfName upFn st rest
      else if !cfg.migrateDependencies then
        ⟨st, [.blocked selfName dscript.dependency_path], .ok, false⟩
      else
        match loadScript cfg (resolveDependencyPath cfg dep) with
        | .error e => ⟨st, [], .error e, false⟩
        | .ok dscript2 =>
          let r := upFn st dscript2
          match r.out with
          | .error e => ⟨r.st, r.tr, .error e, false⟩
          | .ok =>
            let rr := depsLoop cfg selfName upFn r.st rest
            ⟨rr.st, r.tr ++ rr.tr, rr.out, rr.proceed⟩

/-- The dependency phase of Migrator.up: nothing to do when the module
has no dependencies attribute. -/
def depsPhase (cfg : Config) (selfName : String) (upFn : List String → Script → RunRes)
    (st : List String) : Option (List String) → DepsRes
  | none => ⟨st, [], .ok, true⟩
  | some deps => depsLoop cfg selfName upFn st deps

/-- The execution phase of Migrator.up: after the dependency phase,
either propagate its error, honour its early return, log only (dry run),
or run the up body and then store dependency_path; a raising body
propagates before the store. -/
def execPhase (cfg : Config) (script : Script) (d : DepsRes) : RunRes :=
  match d.out with
  | .error e => ⟨d.st, d.tr, .error e⟩
  | .ok =>
    if !d.proceed then ⟨d.st, d.tr, .ok⟩
    else if !cfg.dryRun then
      if script.src.upRaises then
        ⟨d.st, d.tr ++ [.runUp script], .error (.upFailed script.filename)⟩
      else
        ⟨storeId d.st script.dependency_path,
          d.tr ++ [.runUp script, .store script.dependency_path], .ok⟩
    else ⟨d.st, d.tr, .ok⟩

/-- Migrator.up with explicit recursion fuel (the source recursion is
unbounded and can diverge on cyclic references; exhausted fuel yields a
distinguished error).  Returns immediately when has_run(filename). -/
def up (cfg : Config) : Nat → List String → Script → RunRes
  | 0, st, _ => ⟨st, [], .error .fuel⟩
  | fuel + 1, st, script =>
    if st.contains script.filename then ⟨st, [], .ok⟩
    else execPhase cfg script
      (depsPhase cfg script.filename (up cfg fuel) st script.src.dependencies)

/-- Migrator.down: no-op unless has_run(filename); unless dry run, run
the down body (a raise propagates before the delete) and then delete
dependency_path from storage. -/
def down (cfg : Config) (st : List String) (script : Script) : RunRes :=
  if !(st.contains script.filename) then ⟨st, [], .ok⟩
  else if cfg.dryRun then ⟨st, [], .ok⟩
  else if script.src.downRaises then
    ⟨st, [.runDown script], .error (.downFailed script.filename)⟩
  else
    ⟨st.erase script.dependency_path,
      [.runDown script, .delete script.dependency_path], .ok⟩

/-! ## Discovery (MigratorHelpers._find_all_migration_files) -/

/-- A filesystem entry: a plain file or a directory with its listing
(listing order models the os.listdir order). -/
inductive FSNode where
  | file (name : String)
  | dir (name : String) (children : List FSNode)

/-- Name of an entry. -/
def FSNode.name : FSNode → String
  | .file n => n
  | .dir n _ => n

/-- os.listdir of a listing: the entry names in order. -/
def listNames (l : List FSNode) : List String := l.map FSNode.name

/-- Find the entry with a given name (filesystem names are unique). -/
def lookupNode (l : List FSNode) (n : String) : Option FSNode :=
  l.find? (fun x => x.name == n)

/-- The module branch of discovery: for each immediate subdirectory that
contains a migrations entry (as found by _find_modules_with_migrations),
list its migrations folder; listing a plain file named migrations raises
NotADirectoryError, as os.listdir would. -/
def moduleFiles (dir : String) : List FSNode → Except Err (List String)
  | [] => .ok []
  | .file _ :: rest => moduleFiles dir rest
  | .dir mname kids :: rest =>
    match lookupNode kids "migrations" with
    | none => moduleFiles dir rest
    | some (.file _) => .error .notADirectory
    | some (.dir _ mk) =>
      (moduleFiles dir rest).map (fun r =>
        ((listNames mk).filter isMigrationFile).map
          (pjoin (pjoin (pjoin dir mname) "migrations")) ++ r)

/-- The collection phase of _find_all_migration_files: flat scan of the
root; if empty, rebind to a migrations subfolder when one exists; else
collect from modules.  Returns the (possibly rebound) directory and the
collected full paths. -/
def collectFiles (dir : String) (root : List FSNode) : Except Err (String × List String) :=
  let files1 := ((listNames root).filter isMigrationFile).map (pjoin dir)
  if files1 ≠ [] then .ok (dir, files1)
  else
    match lookupNode root "migrations" with
    | some (.dir _ kids) =>
      let dir2 := pjoin dir "migrations"
      .ok (dir2, ((listNames kids).filter isMigrationFile).map (pjoin dir2))
    | some (.file _) => .error .notADirectory
    | none => (moduleFiles dir root).map (fun fs => (dir, fs))

/-- The validation loop of _find_all_migration_files: walk the collected
files carrying the names and timestamps seen so far; a repeated basename
(extension stripped) raises ValueError, then a repeated leading timestamp
raises ValueError. -/
def validateFiles : List String → List String → List String → Except Err Unit
  | _, _, [] => .ok ()
  | seenN, seenT, f :: rest =>
    let name := pyReplace (basename f) ".py" ""
    if seenN.contains name then .error (.dupName f)
    else
      let ts := fileTs name
      if seenT.contains ts then .error (.dupTimestamp f)
      else validateFiles (name :: seenN) (ts :: seenT) rest

/-- MigratorHelpers._find_all_migration_files: collect, then validate
uniqueness of names and timestamps. -/
def findAllMigrationFiles (dir : String) (root : List FSNode) :
    Except Err (String × List String) :=
  match collectFiles dir root with
  | .error e => .error e
  | .ok (dir2, files) =>
    match validateFiles [] [] files with
    | .error e => .error e
    | .ok _ => .ok (dir2, files)

/-! ## Migrator.migrate and Migrator.rollback -/

/-- MigratorHelpers._migrate_up: join the directory with the given path
(a full path passes through os.path.join unchanged), load, and run up. -/
def migrateUpPath (cfg : Config) (fuel : Nat) (st : List String) (f : String) : RunRes :=
  match loadScript cfg (pjoin cfg.directory f) with
  | .error e => ⟨st, [], .error e⟩
  | .ok script => up cfg fuel st script

/-- The loop of Migrator.migrate over the sorted file list; an exception
from any unit aborts the loop and propagates. -/
def migrateLoop (cfg : Config) (fuel : Nat) : List String → List String → RunRes
  | st, [] => ⟨st, [], .ok⟩
  | st, f :: rest =>
    let r := migrateUpPath cfg fuel st f
    match r.out with
    | .error e => ⟨r.st, r.tr, .error e⟩
    | .ok =>
      let rr := migrateLoop cfg fuel r.st rest
      ⟨rr.st, r.tr ++ rr.tr, rr.out⟩

/-- Migrator.migrate: discover (which may rebind the directory), sort the
full paths, and run each in order. -/
def migrate (cfg : Config) (fuel : Nat) (root : List FSNode) (st : List String) : RunRes :=
  match findAllMigrationFiles cfg.directory root with
  | .error e => ⟨st, [], .error e⟩
  | .ok (dir2, files) =>
    migrateLoop { cfg with directory := dir2 } fuel st (pySorted files)

/-- DynamoDBStorageEngine.get_last_n: sort all stored identifiers in
descending order and take the slice items[-n:]. -/
def getLastN (st : List String) (n : Int) : List String :=
  pySliceFrom (pySortedDesc st) (-n)

/-- Lookup in the migrations map built by Migrator.rollback (a dict
comprehension keyed by basename without extension; a later file with the
same key overwrites an earlier one). -/
def migrationsMapLookup (files : List String) (key : String) : Option String :=
  files.reverse.find? (fun f => pyReplace (basename f) ".py" "" == key)

/-- The loop of Migrator.rollback: for each returned identifier, map its
basename back to a discovered file (dict KeyError when absent), load it,
run down, and stop once the counter reaches n. -/
def rollbackLoop (cfg : Config) (files : List String) (n : Int) :
    List String → Nat → List String → RunRes
  | st, _, [] => ⟨st, [], .ok⟩
  | st, count, id :: rest =>
    let key := pyReplace (basename id) ".py" ""
    match migrationsMapLookup files key with
    | none => ⟨st, [], .error (.keyError key)⟩
    | some path =>
      match loadScript cfg path with
      | .error e => ⟨st, [], .error e⟩
      | .ok script =>
        let r := down cfg st script
        match r.out with
        | .error e => ⟨r.st, r.tr, .error e⟩
        | .ok =>
          if ((count : Int) + 1) = n then ⟨r.st, r.tr, .ok⟩
          else
            let rr := rollbackLoop cfg files n r.st (count + 1) rest
            ⟨rr.st, r.tr ++ rr.tr, rr.out⟩

/-- Migrator.rollback: discover, build the basename map, fetch the
last-n identifiers from storage, and run down over them. -/
def rollback (cfg : Config) (root : List FSNode) (st : List String) (n : Int) : RunRes :=
  match findAllMigrationFiles cfg.directory root with
  | .error e => ⟨st, [], .error e⟩
  | .ok (dir2, files) =>
    rollbackLoop { cfg with directory := dir2 } files n st 0 (getLastN st n)

/-! ## MemoryStorageEngine -/

/-- MemoryStorageEngine.has_run: dict key membership. -/
def memHasRun (data : List String) (filename : String) : Bool := data.contains filename

/-- MemoryStorageEngine.store: dict put. -/
def memStore (data : List String) (filename : String) : List String :=
  if data.contains filename then data else data ++ [filename]

/-- MemoryStorageEngine.delete: del data[filename]; raises KeyError when
the key is absent. -/
def memDelete (data : List String) (filename : String) : Except Err (List String) :=
  if data.contains filename then .ok (data.erase filename) else .error (.keyError filename)

/-! ## CLI dispatch (main) -/

/-- The observable outcome of main after argument parsing. -/
inductive CliOutcome where
  | exitError (msg : String)
  | ranMigrate
  | ranFile (f : String)
  | ranRollback (n : Int)
  | ranStatus
  | ranMake
deriving DecidableEq, Repr

/-- The dispatch logic of main after argparse: engine check, the n-lower-
bound check (applied to the rollback command only), then the command
dispatch; both rollback and down invoke Migrator.rollback(n). -/
def mainDispatch (engine command : String) (n : Int) (file : Option String) : CliOutcome :=
  if engine ≠ "dynamodb" ∧ engine ≠ "memory" then .exitError "Invalid engine"
  else if command = "rollback" ∧ n < 1 then
    .exitError "Invalid number of migrations to rollback"
  else if command = "up" then
    match file with
    | some f => .ranFile f
    | none => .ranMigrate
  else if command = "rollback" ∨ command = "down" then .ranRollback n
  else if command = "status" then .ranStatus
  else if command = "make" then .ranMake
  else .exitError "Invalid command"

/-! ## Basic lemmas about the applied-state record -/

theorem contains_true {l : List String} {a : String} : l.contains a = true ↔ a ∈ l := by
  simp

theorem mem_storeId {st : List String} {id x : String} :
    x ∈ storeId st id ↔ x ∈ st ∨ x = id := by
  unfold storeId
  by_cases h : id ∈ st
  · rw [if_pos (contains_true.mpr h)]
    exact ⟨Or.inl, fun hx => hx.elim (fun hh => hh) (fun he => he ▸ h)⟩
  · rw [if_neg (fun hc => h (contains_true.mp hc))]
    simp

/-- State evolution through the execution phase: membership in the final
record is membership in the initial one or a store event in the trace. -/
theorem execPhase_evol {cfg : Config} {script : Script} {d : DepsRes} {st : List String}
    (hd : ∀ x, x ∈ d.st ↔ x ∈ st ∨ Ev.store x ∈ d.tr) :
    ∀ x, x ∈ (execPhase cfg script d).st ↔ x ∈ st ∨ Ev.store x ∈ (execPhase cfg script d).tr := by
  intro x
  unfold execPhase
  rcases hout : d.out with _ | e
  · by_cases hp : d.proceed
    · by_cases hdry : cfg.dryRun
      · simp [hp, hdry, hd x]
      · by_cases hraise : script.src.upRaises
        · simp [hp, hdry, hraise, hd x]
        · simp [hp, hdry, hraise, mem_storeId, hd x]
          tauto
    · simp [hp, hd x]
  · simp [hd x]

/-- State evolution through the dependency loop, parametric in the
recursive call. -/
theorem depsLoop_evol {cfg : Config} {selfName : String}
    {upFn : List String → Script → RunRes}
    (hup : ∀ st S x, x ∈ (upFn st S).st ↔ x ∈ st ∨ Ev.store x ∈ (upFn st S).tr) :
    ∀ deps st x, x ∈ (depsLoop cfg selfName upFn st deps).st ↔
      x ∈ st ∨ Ev.store x ∈ (depsLoop cfg selfName upFn st deps).tr := by
  intro deps
  induction deps with
  | nil => intro st x; simp [depsLoop]
  | cons dep rest ih =>
    intro st x
    unfold depsLoop
    rcases hload : loadScript cfg (resolveDependencyPath cfg dep) with e | dscript
    · simp
    · simp only
      by_cases hmem : st.contains dscript.dependency_path
      · simp only [hmem, if_true]
        exact ih st x
      · simp only [hmem, if_false, Bool.false_eq_true]
        by_cases hmd : cfg.migrateDependencies
        · simp only [hmd, Bool.not_true, Bool.false_eq_true, if_false, hload]
          rcases hout : (upFn st dscript).out with _ | e
          · simp only
            constructor
            · intro h
              rcases (ih _ x).mp h with h1 | h2
              · rcases (hup st dscript x).mp h1 with h3 | h4
                · exact Or.inl h3
                · exact Or.inr (by simp [h4])
              · exact Or.inr (by simp [h2])
            · intro h
              rcases h with h1 | h2
              · exact (ih _ x).mpr (Or.inl ((hup st dscript x).mpr (Or.inl h1)))
              · rcases List.mem_append.mp h2 with h3 | h4
                · exact (ih _ x).mpr (Or.inl ((hup st dscript x).mpr (Or.inr h3)))
                · exact (ih _ x).mpr (Or.inr h4)
          · simpa using hup st dscript x
        · simp [hmd]

theorem depsPhase_evol {cfg : Config} {selfName : String}
    {upFn : List String → Script → RunRes}
    (hup : ∀ st S x, x ∈ (upFn st S).st ↔ x ∈ st ∨ Ev.store x ∈ (upFn st S).tr) :
    ∀ deps st x, x ∈ (depsPhase cfg selfName upFn st deps).st ↔
      x ∈ st ∨ Ev.store x ∈ (depsPhase cfg selfName upFn st deps).tr := by
  intro deps st x
  cases deps with
  | none => simp [depsPhase]
  | some l => exact depsLoop_evol hup l st x

/-- State evolution through Migrator.up: the final record is the initial
one extended by exactly the identifiers of the store events in the
emitted trace (up never deletes). -/
theorem up_evol (cfg : Config) :
    ∀ fuel st S x, x ∈ (up cfg fuel st S).st ↔ x ∈ st ∨ Ev.store x ∈ (up cfg fuel st S).tr := by
  intro fuel
  induction fuel with
  | zero => intro st S x; simp [up]
  | succ fuel ih =>
    intro st S x
    by_cases hrun : S.filename ∈ st
    · simp [up, hrun]
    · unfold up
      rw [if_neg (fun hc => hrun (contains_true.mp hc))]
      exact execPhase_evol (depsPhase_evol (fun st S => ih st S) S.src.dependencies st) x

/-! ## Dry-run purity -/

/-- True when a trace consists only of blocked-dependency log events:
no body execution and no storage write. -/
def blockedOnly (tr : List Ev) : Bool :=
  tr.all fun e => match e with
    | .blocked _ _ => true
    | _ => false

theorem blockedOnly_append {t1 t2 : List Ev} :
    blockedOnly (t1 ++ t2) = (blockedOnly t1 && blockedOnly t2) := by
  simp [blockedOnly]

theorem execPhase_dry {cfg : Config} {script : Script} {d : DepsRes}
    (hdry : cfg.dryRun = true) :
    (execPhase cfg script d).st = d.st ∧ (execPhase cfg script d).tr = d.tr := by
  unfold execPhase
  rcases d.out with _ | e
  · by_cases hp : d.proceed <;> simp [hp, hdry]
  · simp

theorem depsLoop_dry {cfg : Config} {selfName : String}
    {upFn : List String → Script → RunRes}
    (hup : ∀ st S, (upFn st S).st = st ∧ blockedOnly (upFn st S).tr = true) :
    ∀ deps st, (depsLoop cfg selfName upFn st deps).st = st ∧
      blockedOnly (depsLoop cfg selfName upFn st deps).tr = true := by
  intro deps
  induction deps with
  | nil => intro st; simp [depsLoop, blockedOnly]
  | cons dep rest ih =>
    intro st
    unfold depsLoop
    rcases loadScript cfg (resolveDependencyPath cfg dep) with e | dscript
    · simp [blockedOnly]
    · simp only
      by_cases hmem : st.contains dscript.dependency_path
      · simp only [hmem, if_true]
        exact ih st
      · simp only [hmem, Bool.false_eq_true, if_false]
        by_cases hmd : cfg.migrateDependencies
        · simp only [hmd, Bool.not_true, Bool.false_eq_true, if_false]
          rcases hout : (upFn st dscript).out with _ | e
          · simp only [hout]
            have h1 := hup st dscript
            have h2 := ih (upFn st dscript).st
            refine ⟨by rw [h1.1] at h2 ⊢; exact h2.1, ?_⟩
            rw [blockedOnly_append, h1.2, h2.2]
            rfl
          · simp only [hout]
            exact hup st dscript
        · simp [hmd, blockedOnly]

theorem depsPhase_dry {cfg : Config} {selfName : String}
    {upFn : List String → Script → RunRes}
    (hup : ∀ st S, (upFn st S).st = st ∧ blockedOnly (upFn st S).tr = true) :
    ∀ deps st, (depsPhase cfg selfName upFn st deps).st = st ∧
      blockedOnly (depsPhase cfg selfName upFn st deps).tr = true := by
  intro deps st
  cases deps with
  | none => simp [depsPhase, blockedOnly]
  | some l => exact depsLoop_dry hup l st

/-- Dry-run purity of Migrator.up: the record is unchanged and the trace
holds nothing but blocked-dependency log lines. -/
theorem up_dry (cfg : Config) (hdry : cfg.dryRun = true) :
    ∀ fuel st S, (up cfg fuel st S).st = st ∧ blockedOnly (up cfg fuel st S).tr = true := by
  intro fuel
  induction fuel with
  | zero => intro st S; simp [up, blockedOnly]
  | succ fuel ih =>
    intro st S
    by_cases hrun : S.filename ∈ st
    · simp [up, hrun, blockedOnly]
    · unfold up
      rw [if_neg (fun hc => hrun (contains_true.mp hc))]
      have hd := @depsPhase_dry cfg S.filename (up cfg fuel) (fun st S => ih st S)
        S.src.dependencies st
      have he := @execPhase_dry cfg S
        (depsPhase cfg S.filename (up cfg fuel) st S.src.dependencies) hdry
      exact ⟨he.1.trans hd.1, by rw [he.2]; exact hd.2⟩

/-- Dry-run purity of Migrator.down: a strict no-op. -/
theorem down_dry (cfg : Config) (hdry : cfg.dryRun = true) (st : List String) (S : Script) :
    down cfg st S = ⟨st, [], .ok⟩ := by
  unfold down
  by_cases hrun : st.contains S.filename <;> simp [hrun, hdry]

/-! ## Store and delete only after a successful body -/

/-- Every store event in the trace immediately follows the successful up
body execution of the script whose dependency_path it records. -/
def storeAfterBody (tr : List Ev) : Prop :=
  ∀ j id, tr[j]? = some (.store id) →
    ∃ X j2, j = j2 + 1 ∧ tr[j2]? = some (.runUp X) ∧
      X.dependency_path = id ∧ X.src.upRaises = false

/-- Every delete event in the trace immediately follows the successful
down body execution of the script whose dependency_path it records. -/
def deleteAfterBody (tr : List Ev) : Prop :=
  ∀ j id, tr[j]? = some (.delete id) →
    ∃ X j2, j = j2 + 1 ∧ tr[j2]? = some (.runDown X) ∧
      X.dependency_path = id ∧ X.src.downRaises = false

theorem storeAfterBody_nil : storeAfterBody [] := by
  intro j id h
  simp at h

theorem storeAfterBody_append {t1 t2 : List Ev}
    (h1 : storeAfterBody t1) (h2 : storeAfterBody t2) : storeAfterBody (t1 ++ t2) := by
  intro j id hj
  by_cases hlt : j < t1.length
  · rw [List.getElem?_append, if_pos hlt] at hj
    obtain ⟨X, j2, he, hr, hdp, hraise⟩ := h1 j id hj
    refine ⟨X, j2, he, ?_, hdp, hraise⟩
    rw [List.getElem?_append, if_pos (by omega)]
    exact hr
  · rw [List.getElem?_append_right (by omega)] at hj
    obtain ⟨X, j2, he, hr, hdp, hraise⟩ := h2 (j - t1.length) id hj
    refine ⟨X, t1.length + j2, by omega, ?_, hdp, hraise⟩
    rw [List.getElem?_append_right (by omega)]
    have : t1.length + j2 - t1.length = j2 := by omega
    rw [this]
    exact hr

theorem storeAfterBody_exec {X : Script} (hraise : X.src.upRaises = false) :
    storeAfterBody [.runUp X, .store X.dependency_path] := by
  intro j id hj
  match j with
  | 0 => simp at hj
  | 1 =>
    simp at hj
    exact ⟨X, 0, rfl, by simp, by simp [hj], hraise⟩
  | n + 2 => simp at hj

theorem storeAfterBody_runUp {X : Script} : storeAfterBody [.runUp X] := by
  intro j id hj
  match j with
  | 0 => simp at hj
  | n + 1 => simp at hj

theorem storeAfterBody_blocked {f d : String} : storeAfterBody [.blocked f d] := by
  intro j id hj
  match j with
  | 0 => simp at hj
  | n + 1 => simp at hj

/-- The bundled failure-semantics property of a run result: store only
after a successful up body, and when the run failed with a raising up
body, the last emitted event is exactly that body execution (so nothing
was stored for it). -/
def FailSem (r : RunRes) : Prop :=
  storeAfterBody r.tr ∧
    ∀ f, r.out = .error (.upFailed f) →
      ∃ X, r.tr.getLast? = some (.runUp X) ∧ X.filename = f ∧ X.src.upRaises = true

def FailSemD (d : DepsRes) : Prop :=
  storeAfterBody d.tr ∧
    ∀ f, d.out = .error (.upFailed f) →
      ∃ X, d.tr.getLast? = some (.runUp X) ∧ X.filename = f ∧ X.src.upRaises = true

/-- The loader can only fail with FileNotFoundError. -/
theorem loadScript_error {cfg : Config} {p : String} {e : Err}
    (h : loadScript cfg p = .error e) : e = Err.notFound p := by
  unfold loadScript at h
  rcases he : cfg.env p with _ | src <;> rw [he] at h <;> simp at h
  exact h.symm

theorem depsLoop_failSem {cfg : Config} {selfName : String}
    {upFn : List String → Script → RunRes}
    (hup : ∀ st S, FailSem (upFn st S)) :
    ∀ deps st, FailSemD (depsLoop cfg selfName upFn st deps) := by
  intro deps
  induction deps with
  | nil => intro st; exact ⟨storeAfterBody_nil, by intro f h; simp [depsLoop] at h⟩
  | cons dep rest ih =>
    intro st
    unfold depsLoop
    rcases hload : loadScript cfg (resolveDependencyPath cfg dep) with e | dscript
    · refine ⟨storeAfterBody_nil, ?_⟩
      intro f h
      simp only [Outcome.error.injEq] at h
      rw [loadScript_error hload] at h
      simp at h
    · simp only
      by_cases hmem : st.contains dscript.dependency_path
      · simp only [hmem, if_true]
        exact ih st
      · simp only [hmem, Bool.false_eq_true, if_false]
        by_cases hmd : cfg.migrateDependencies
        · simp only [hmd, Bool.not_true, Bool.false_eq_true, if_false]
          rcases hout : (upFn st dscript).out with _ | e
          · simp only [hout]
            obtain ⟨hs1, hf1⟩ := hup st dscript
            obtain ⟨hs2, hf2⟩ := ih (upFn st dscript).st
            refine ⟨storeAfterBody_append hs1 hs2, ?_⟩
            intro f hfe
            simp only at hfe
            obtain ⟨X, hl, hn, hr⟩ := hf2 f hfe
            refine ⟨X, ?_, hn, hr⟩
            simp only [List.getLast?_append, hl]
            rfl
          · simp only [hout]
            obtain ⟨hs1, hf1⟩ := hup st dscript
            refine ⟨hs1, ?_⟩
            intro f hfe
            simp only [Outcome.error.injEq] at hfe
            exact hf1 f (by rw [hout, hfe])
        · simp only [hmd, Bool.not_false, if_true]
          exact ⟨storeAfterBody_blocked, by intro f h; simp at h⟩

theorem depsPhase_failSem {cfg : Config} {selfName : String}
    {upFn : List String → Script → RunRes}
    (hup : ∀ st S, FailSem (upFn st S)) :
    ∀ deps st, FailSemD (depsPhase cfg selfName upFn st deps) := by
  intro deps st
  cases deps with
  | none => exact ⟨storeAfterBody_nil, by intro f h; simp [depsPhase] at h⟩
  | some l => exact depsLoop_failSem hup l st

theorem execPhase_failSem {cfg : Config} {script : Script} {d : DepsRes}
    (hd : FailSemD d) : FailSem (execPhase cfg script d) := by
  unfold execPhase
  rcases hout : d.out with _ | e
  · by_cases hp : d.proceed
    · by_cases hdry : cfg.dryRun
      · simp only [hp, Bool.not_true, Bool.false_eq_true, if_false, hdry]
        exact ⟨hd.1, by intro f h; simp at h⟩
      · by_cases hraise : script.src.upRaises
        · simp only [hp, Bool.not_true, Bool.false_eq_true, if_false, hdry,
            Bool.not_false, if_true, hraise]
          refine ⟨storeAfterBody_append hd.1 storeAfterBody_runUp, ?_⟩
          intro f hfe
          simp only [Outcome.error.injEq, Err.upFailed.injEq] at hfe
          exact ⟨script, by simp [List.getLast?_append], hfe, hraise⟩
        · have hraise2 : script.src.upRaises = false := by
            revert hraise
            cases script.src.upRaises <;> simp
          simp only [hp, Bool.not_true, Bool.false_eq_true, if_false, hdry,
            Bool.not_false, if_true, hraise2]
          refine ⟨storeAfterBody_append hd.1 (storeAfterBody_exec hraise2), ?_⟩
          intro f hfe
          simp at hfe
    · simp only [hp, Bool.not_false, if_true]
      exact ⟨hd.1, by intro f h; simp at h⟩
  · simp only
    refine ⟨hd.1, ?_⟩
    intro f hfe
    simp only [Outcome.error.injEq] at hfe
    exact hd.2 f (by rw [hout, hfe])

/-- Failure semantics of Migrator.up, for every fuel, state and script. -/
theorem up_failSem (cfg : Config) : ∀ fuel st S, FailSem (up cfg fuel st S) := by
  intro fuel
  induction fuel with
  | zero =>
    intro st S
    exact ⟨storeAfterBody_nil, by intro f h; simp [up] at h⟩
  | succ fuel ih =>
    intro st S
    by_cases hrun : S.filename ∈ st
    · refine ⟨?_, ?_⟩
      · simp only [up, if_pos (contains_true.mpr hrun)]
        exact storeAfterBody_nil
      · intro f h
        simp only [up, if_pos (contains_true.mpr hrun)] at h
        simp at h
    · unfold up
      rw [if_neg (fun hc => hrun (contains_true.mp hc))]
      exact execPhase_failSem (depsPhase_failSem (fun st S => ih st S) S.src.dependencies st)

/-- Failure semantics of Migrator.down: delete only after a successful
down body, and a raising down body leaves the record exactly as it was. -/
theorem down_failSem (cfg : Config) (st : List String) (S : Script) :
    deleteAfterBody (down cfg st S).tr ∧
      (S.src.downRaises = true → st.contains S.filename = true → cfg.dryRun = false →
        down cfg st S = ⟨st, [.runDown S], .error (.downFailed S.filename)⟩) := by
  constructor
  · unfold down
    by_cases hrun : st.contains S.filename
    · by_cases hdry : cfg.dryRun
      · simp only [hrun, Bool.not_true, Bool.false_eq_true, if_false, hdry, if_true]
        intro j id h
        simp at h
      · by_cases hraise : S.src.downRaises
        · simp only [hrun, Bool.not_true, Bool.false_eq_true, if_false, hdry, hraise, if_true]
          intro j id h
          match j with
          | 0 => simp at h
          | n + 1 => simp at h
        · simp only [hrun, Bool.not_true, Bool.false_eq_true, if_false, hdry, hraise, if_true]
          intro j id h
          match j with
          | 0 => simp at h
          | 1 =>
            simp at h
            exact ⟨S, 0, rfl, by simp, by simp [h], by simp [hraise]⟩
          | n + 2 => simp at h
    · simp only [hrun, Bool.not_false, if_true]
      intro j id h
      simp at h
  · intro hraise hrun hdry
    unfold down
    simp only [hrun, Bool.not_true, Bool.false_eq_true, if_false, hdry, hraise, if_true]

/-! ## Dependency-before-dependent ordering -/

/-- An identifier counts as applied at a point of a run when it was in
the record at the start or some store event for it has already been
emitted. -/
def appliedAt (st : List String) (tr : List Ev) (id : String) : Prop :=
  id ∈ st ∨ Ev.store id ∈ tr

/-- The dependency-before-dependent property of a trace begun in record
st: whenever the up body of a script S executes, every dependency
reference of S that loads to a script D was already applied at that
point (under either of its two identifiers, reflecting the two has_run
checks the source makes) or the up body of a script with D's filename
executed strictly earlier in the trace. -/
def GoodTrace (cfg : Config) (st : List String) (tr : List Ev) : Prop :=
  ∀ i S, tr[i]? = some (.runUp S) →
    ∀ dep ∈ S.src.dependencies.getD [], ∀ D,
      loadScript cfg (resolveDependencyPath cfg dep) = .ok D →
      appliedAt st (tr.take i) D.filename ∨ appliedAt st (tr.take i) D.dependency_path ∨
      ∃ j, j < i ∧ ∃ Dx, tr[j]? = some (.runUp Dx) ∧ Dx.filename = D.filename

/-- The dependency loop discharged its list: every reference that loads
is applied (under one of its two identifiers) by the end of the loop
trace. -/
def DepsSat (cfg : Config) (st : List String) (d : DepsRes) (deps : List String) : Prop :=
  ∀ dep ∈ deps, ∀ D, loadScript cfg (resolveDependencyPath cfg dep) = .ok D →
    appliedAt st d.tr D.filename ∨ appliedAt st d.tr D.dependency_path

theorem goodTrace_nil {cfg : Config} {st : List String} : GoodTrace cfg st [] := by
  intro i S h
  simp at h

theorem goodTrace_no_runUp {cfg : Config} {st : List String} {tr : List Ev}
    (h : ∀ S, Ev.runUp S ∉ tr) : GoodTrace cfg st tr := by
  intro i S hi
  exact absurd (List.getElem?_mem hi) (h S)

theorem goodTrace_append {cfg : Config} {st st2 : List String} {t1 t2 : List Ev}
    (hev : ∀ x, x ∈ st2 ↔ x ∈ st ∨ Ev.store x ∈ t1)
    (h1 : GoodTrace cfg st t1) (h2 : GoodTrace cfg st2 t2) :
    GoodTrace cfg st (t1 ++ t2) := by
  intro i S hi dep hdep D hD
  by_cases hlt : i < t1.length
  · rw [List.getElem?_append, if_pos hlt] at hi
    have htake : (t1 ++ t2).take i = t1.take i := by
      rw [List.take_append_eq_append_take]
      have : i - t1.length = 0 := by omega
      rw [this]
      simp
    rw [htake]
    rcases h1 i S hi dep hdep D hD with h | h | ⟨j, hj, Dx, hDx, hf⟩
    · exact Or.inl h
    · exact Or.inr (Or.inl h)
    · refine Or.inr (Or.inr ⟨j, hj, Dx, ?_, hf⟩)
      rw [List.getElem?_append, if_pos (by omega)]
      exact hDx
  · rw [List.getElem?_append_right (by omega)] at hi
    have htake : (t1 ++ t2).take i = t1 ++ t2.take (i - t1.length) := by
      rw [List.take_append_eq_append_take, List.take_of_length_le (by omega)]
    rw [htake]
    have happ : ∀ id, appliedAt st2 (t2.take (i - t1.length)) id →
        appliedAt st (t1 ++ t2.take (i - t1.length)) id := by
      intro id h
      rcases h with h | h
      · rcases (hev id).mp h with h | h
        · exact Or.inl h
        · exact Or.inr (List.mem_append.mpr (Or.inl h))
      · exact Or.inr (List.mem_append.mpr (Or.inr h))
    rcases h2 (i - t1.length) S hi dep hdep D hD with h | h | ⟨j, hj, Dx, hDx, hf⟩
    · exact Or.inl (happ _ h)
    · exact Or.inr (Or.inl (happ _ h))
    · refine Or.inr (Or.inr ⟨t1.length + j, by omega, Dx, ?_, hf⟩)
      rw [List.getElem?_append_right (by omega)]
      have : t1.length + j - t1.length = j := by omega
      rw [this]
      exact hDx

/-- With migrate_dependencies on, the loop can only stop early by
raising: a normal return means control proceeds to the execution phase. -/
theorem depsLoop_md_proceed {cfg : Config} {selfName : String}
    {upFn : List String → Script → RunRes} (hmd : cfg.migrateDependencies = true) :
    ∀ deps st, (depsLoop cfg selfName upFn st deps).out = .ok →
      (depsLoop cfg selfName upFn st deps).proceed = true := by
  intro deps
  induction deps with
  | nil => intro st _; rfl
  | cons dep rest ih =>
    intro st
    unfold depsLoop
    rcases loadScript cfg (resolveDependencyPath cfg dep) with e | dscript
    · intro h; simp at h
    · simp only
      by_cases hmem : st.contains dscript.dependency_path
      · simp only [hmem, if_true]
        exact ih st
      · simp only [hmem, Bool.false_eq_true, if_false, hmd, Bool.not_true, if_false]
        rcases hout : (upFn st dscript).out with _ | e
        · simp only [hout]
          exact ih (upFn st dscript).st
        · simp only [hout]
          intro h
          simp at h

/-- GoodTrace and, on normal completion, DepsSat for the dependency
loop, given the inductive facts about the recursive call. -/
theorem depsLoop_good {cfg : Config} {selfName : String}
    {upFn : List String → Script → RunRes}
    (hev : ∀ st S x, x ∈ (upFn st S).st ↔ x ∈ st ∨ Ev.store x ∈ (upFn st S).tr)
    (hgood : ∀ st S, GoodTrace cfg st (upFn st S).tr)
    (hpost : ∀ st S, cfg.migrateDependencies = true → (upFn st S).out = .ok →
      appliedAt st (upFn st S).tr S.filename ∨ appliedAt st (upFn st S).tr S.dependency_path) :
    ∀ deps st, GoodTrace cfg st (depsLoop cfg selfName upFn st deps).tr ∧
      ((depsLoop cfg selfName upFn st deps).out = .ok →
        (depsLoop cfg selfName upFn st deps).proceed = true →
        DepsSat cfg st (depsLoop cfg selfName upFn st deps) deps) := by
  intro deps
  induction deps with
  | nil =>
    intro st
    refine ⟨goodTrace_nil, ?_⟩
    intro _ _ dep hdep
    simp at hdep
  | cons dep rest ih =>
    intro st
    unfold depsLoop
    rcases hload : loadScript cfg (resolveDependencyPath cfg dep) with e | dscript
    · refine ⟨goodTrace_nil, ?_⟩
      intro h
      simp at h
    · simp only
      by_cases hmem : st.contains dscript.dependency_path
      · simp only [hmem, if_true]
        refine ⟨(ih st).1, ?_⟩
        intro hok hpr dep2 hdep2 D hD
        rcases List.mem_cons.mp hdep2 with h1 | h2
        · subst h1
          rw [hload] at hD
          injection hD with hD
          subst hD
          exact Or.inr (Or.inl (contains_true.mp hmem))
        · exact (ih st).2 hok hpr dep2 h2 D hD
      · simp only [hmem, Bool.false_eq_true, if_false]
        by_cases hmd : cfg.migrateDependencies
        · simp only [hmd, Bool.not_true, Bool.false_eq_true, if_false]
          rcases hout : (upFn st dscript).out with _ | e
          · simp only [hout]
            have hevS := hev st dscript
            have ih2 := ih (upFn st dscript).st
            refine ⟨goodTrace_append hevS (hgood st dscript) ih2.1, ?_⟩
            intro hok hpr
            intro dep2 hdep2 D hD
            rcases List.mem_cons.mp hdep2 with h1 | h2
            · subst h1
              rw [hload] at hD
              injection hD with hD
              subst hD
              rcases hpost st dscript hmd hout with h | h
              · rcases h with h | h
                · exact Or.inl (Or.inl h)
                · exact Or.inl (Or.inr (by simp only [List.mem_append]; exact Or.inl h))
              · rcases h with h | h
                · exact Or.inr (Or.inl h)
                · exact Or.inr (Or.inr (by simp only [List.mem_append]; exact Or.inl h))
            · rcases ih2.2 hok hpr dep2 h2 D hD with h | h
              · rcases h with h | h
                · rcases (hevS D.filename).mp h with h3 | h3
                  · exact Or.inl (Or.inl h3)
                  · exact Or.inl (Or.inr (by simp only [List.mem_append]; exact Or.inl h3))
                · exact Or.inl (Or.inr (by simp only [List.mem_append]; exact Or.inr h))
              · rcases h with h | h
                · rcases (hevS D.dependency_path).mp h with h3 | h3
                  · exact Or.inr (Or.inl h3)
                  · exact Or.inr (Or.inr (by simp only [List.mem_append]; exact Or.inl h3))
                · exact Or.inr (Or.inr (by simp only [List.mem_append]; exact Or.inr h))
          · simp only [hout]
            refine ⟨hgood st dscript, ?_⟩
            intro _ hpr
            simp at hpr
        · simp only [hmd, Bool.not_false, if_true]
          refine ⟨goodTrace_no_runUp
            (by intro S h; exact Ev.noConfusion (List.mem_singleton.mp h)), ?_⟩
          intro _ hpr
          simp at hpr

theorem depsPhase_md_proceed {cfg : Config} {selfName : String}
    {upFn : List String → Script → RunRes} (hmd : cfg.migrateDependencies = true) :
    ∀ deps st, (depsPhase cfg selfName upFn st deps).out = .ok →
      (depsPhase cfg selfName upFn st deps).proceed = true := by
  intro deps st
  cases deps with
  | none => intro _; rfl
  | some l => exact depsLoop_md_proceed hmd l st

theorem depsPhase_good {cfg : Config} {selfName : String}
    {upFn : List String → Script → RunRes}
    (hev : ∀ st S x, x ∈ (upFn st S).st ↔ x ∈ st ∨ Ev.store x ∈ (upFn st S).tr)
    (hgood : ∀ st S, GoodTrace cfg st (upFn st S).tr)
    (hpost : ∀ st S, cfg.migrateDependencies = true → (upFn st S).out = .ok →
      appliedAt st (upFn st S).tr S.filename ∨ appliedAt st (upFn st S).tr S.dependency_path) :
    ∀ deps st, GoodTrace cfg st (depsPhase cfg selfName upFn st deps).tr ∧
      ((depsPhase cfg selfName upFn st deps).out = .ok →
        (depsPhase cfg selfName upFn st deps).proceed = true →
        DepsSat cfg st (depsPhase cfg selfName upFn st deps) (deps.getD [])) := by
  intro deps st
  cases deps with
  | none =>
    refine ⟨goodTrace_nil, ?_⟩
    intro _ _ dep hdep
    simp at hdep
  | some l => exact depsLoop_good hev hgood hpost l st

/-- A trace that begins with the up body of S and continues without
further body executions is good relative to a record in which every
dependency of S is already applied. -/
theorem goodTrace_cons_runUp {cfg : Config} {st2 : List String} {S : Script} {rest : List Ev}
    (hdep : ∀ dep ∈ S.src.dependencies.getD [], ∀ D,
      loadScript cfg (resolveDependencyPath cfg dep) = .ok D →
      D.filename ∈ st2 ∨ D.dependency_path ∈ st2)
    (hrest : ∀ S2, Ev.runUp S2 ∉ rest) :
    GoodTrace cfg st2 (Ev.runUp S :: rest) := by
  intro i S2 hi dep hdep2 D hD
  match i with
  | 0 =>
    simp only [List.getElem?_cons_zero, Option.some.injEq, Ev.runUp.injEq] at hi
    subst hi
    rcases hdep dep hdep2 D hD with h | h
    · exact Or.inl (Or.inl h)
    · exact Or.inr (Or.inl (Or.inl h))
  | n + 1 =>
    simp only [List.getElem?_cons_succ] at hi
    exact absurd (List.getElem?_mem hi) (hrest S2)

/-- GoodTrace carries through the execution phase: the new body-run event
of S is justified by DepsSat of the dependency phase. -/
theorem execPhase_good {cfg : Config} {st : List String} {S : Script} {d : DepsRes}
    (hdev : ∀ x, x ∈ d.st ↔ x ∈ st ∨ Ev.store x ∈ d.tr)
    (hgood : GoodTrace cfg st d.tr)
    (hsat : d.out = .ok → d.proceed = true → DepsSat cfg st d (S.src.dependencies.getD [])) :
    GoodTrace cfg st (execPhase cfg S d).tr := by
  unfold execPhase
  rcases hout : d.out with _ | e
  · by_cases hp : d.proceed
    · have hsat2 : ∀ dep ∈ S.src.dependencies.getD [], ∀ D,
          loadScript cfg (resolveDependencyPath cfg dep) = .ok D →
          D.filename ∈ d.st ∨ D.dependency_path ∈ d.st := by
        intro dep hdep D hD
        rcases hsat hout hp dep hdep D hD with h | h
        · exact Or.inl ((hdev D.filename).mpr h)
        · exact Or.inr ((hdev D.dependency_path).mpr h)
      by_cases hdry : cfg.dryRun
      · simp only [hp, Bool.not_true, Bool.false_eq_true, if_false, hdry]
        exact hgood
      · by_cases hraise : S.src.upRaises
        · simp only [hp, Bool.not_true, Bool.false_eq_true, if_false, hdry,
            Bool.not_false, if_true, hraise]
          exact goodTrace_append hdev hgood
            (goodTrace_cons_runUp hsat2 (by intro S2 h; exact absurd h (List.not_mem_nil _)))
        · have hraise2 : S.src.upRaises = false := by
            revert hraise
            cases S.src.upRaises <;> simp
          simp only [hp, Bool.not_true, Bool.false_eq_true, if_false, hdry,
            Bool.not_false, if_true, hraise2]
          exact goodTrace_append hdev hgood
            (goodTrace_cons_runUp hsat2
              (by intro S2 h; exact Ev.noConfusion (List.mem_singleton.mp h)))
    · simp only [hp, Bool.not_false, if_true]
      exact hgood
  · simp only
    exact hgood

theorem blockedOnly_no_runUp {tr : List Ev} (h : blockedOnly tr = true) (S : Script) :
    Ev.runUp S ∉ tr := by
  intro hmem
  have := List.all_eq_true.mp h _ hmem
  simp at this

/-- Dependency-before-dependent holds of every Migrator.up trace, and a
normal non-dry completion leaves the script applied under one of its two
identifiers. -/
theorem up_good (cfg : Config) :
    ∀ fuel st S, GoodTrace cfg st (up cfg fuel st S).tr ∧
      (cfg.migrateDependencies = true → cfg.dryRun = false → (up cfg fuel st S).out = .ok →
        appliedAt st (up cfg fuel st S).tr S.filename ∨
        appliedAt st (up cfg fuel st S).tr S.dependency_path) := by
  by_cases hdry : cfg.dryRun
  · intro fuel st S
    refine ⟨goodTrace_no_runUp (blockedOnly_no_runUp (up_dry cfg hdry fuel st S).2), ?_⟩
    intro _ hdryf
    rw [hdry] at hdryf
    exact absurd hdryf (by simp)
  · have hdryf : cfg.dryRun = false := by
      revert hdry
      cases cfg.dryRun <;> simp
    intro fuel
    induction fuel with
    | zero =>
      intro st S
      refine ⟨goodTrace_nil, ?_⟩
      intro _ _ h
      simp [up] at h
    | succ fuel ih =>
      intro st S
      by_cases hrun : S.filename ∈ st
      · constructor
        · simp only [up, if_pos (contains_true.mpr hrun)]
          exact goodTrace_nil
        · intro _ _ _
          exact Or.inl (Or.inl hrun)
      · unfold up
        rw [if_neg (fun hc => hrun (contains_true.mp hc))]
        have hev := fun st S x => up_evol cfg fuel st S x
        have hgood := fun st S => (ih st S).1
        have hpost := fun st2 S2 hmd hok => (ih st2 S2).2 hmd hdryf hok
        have hd := @depsPhase_good cfg S.filename (up cfg fuel) hev hgood hpost
          S.src.dependencies st
        refine ⟨execPhase_good (depsPhase_evol hev S.src.dependencies st) hd.1 hd.2, ?_⟩
        intro hmd _ hok
        rcases hdout : (depsPhase cfg S.filename (up cfg fuel) st S.src.dependencies).out
          with _ | e
        · have hpr := depsPhase_md_proceed hmd S.src.dependencies st hdout
          unfold execPhase at hok ⊢
          rw [hdout] at hok ⊢
          simp only [hpr, Bool.not_true, Bool.false_eq_true, if_false, hdryf] at hok ⊢
          by_cases hraise : S.src.upRaises
          · simp only [hraise, if_true] at hok
            exact absurd hok (by simp)
          · have hraise2 : S.src.upRaises = false := by
              revert hraise
              cases S.src.upRaises <;> simp
            simp only [hraise2, Bool.false_eq_true, if_false] at hok ⊢
            refine Or.inr (Or.inr ?_)
            simp
        · unfold execPhase at hok
          rw [hdout] at hok
          exact absurd hok (by simp)

/-! ## Short-circuit and blocked-dependency behaviour -/

/-- The idempotent short-circuit of Migrator.up: a script whose filename
is recorded as applied returns immediately, with no body execution and no
storage call. -/
theorem up_shortCircuit {cfg : Config} {st : List String} {S : Script}
    (h : st.contains S.filename = true) (fuel : Nat) :
    up cfg (fuel + 1) st S = ⟨st, [], .ok⟩ := by
  simp only [up, h, if_true]

/-- A dependency reference counts as satisfied for the loop when it loads
and its dependency_path is recorded. -/
def depApplied (cfg : Config) (st : List String) (dep : String) : Bool :=
  match loadScript cfg (resolveDependencyPath cfg dep) with
  | .ok D => st.contains D.dependency_path
  | .error _ => false

/-- With migrate_dependencies off, the loop walks satisfied references
and stops at the first unsatisfied one with a single blocked log event,
leaving the record untouched. -/
theorem depsLoop_blocked {cfg : Config} {selfName : String}
    {upFn : List String → Script → RunRes} (hmd : cfg.migrateDependencies = false) :
    ∀ pre, ∀ {dep post st D},
      (∀ d2 ∈ pre, depApplied cfg st d2 = true) →
      loadScript cfg (resolveDependencyPath cfg dep) = .ok D →
      st.contains D.dependency_path = false →
      depsLoop cfg selfName upFn st (pre ++ dep :: post) =
        ⟨st, [.blocked selfName D.dependency_path], .ok, false⟩ := by
  intro pre
  induction pre with
  | nil =>
    intro dep post st D hpre hload hns
    simp only [List.nil_append]
    unfold depsLoop
    rw [hload]
    simp only [hns, Bool.false_eq_true, if_false, hmd, Bool.not_false, if_true]
  | cons d2 rest ih =>
    intro dep post st D hpre hload hns
    have hd2 := hpre d2 (List.mem_cons_self d2 rest)
    unfold depApplied at hd2
    rcases hload2 : loadScript cfg (resolveDependencyPath cfg d2) with e | D2
    · rw [hload2] at hd2
      simp at hd2
    · rw [hload2] at hd2
      simp only [List.cons_append]
      unfold depsLoop
      rw [hload2]
      simp only
      rw [if_pos hd2]
      exact ih (fun d3 h3 => hpre d3 (List.mem_cons_of_mem d2 h3)) hload hns

/-- With migrate_dependencies off the dependency loop is read-only: the
record is unchanged and the trace holds at most blocked log events, and
the result does not depend on the recursive call. -/
theorem depsLoop_nomd {cfg : Config} {selfName : String}
    {upFn upFn2 : List String → Script → RunRes} (hmd : cfg.migrateDependencies = false) :
    ∀ deps st, (depsLoop cfg selfName upFn st deps).st = st ∧
      blockedOnly (depsLoop cfg selfName upFn st deps).tr = true ∧
      depsLoop cfg selfName upFn st deps = depsLoop cfg selfName upFn2 st deps := by
  intro deps
  induction deps with
  | nil => intro st; exact ⟨rfl, rfl, rfl⟩
  | cons dep rest ih =>
    intro st
    unfold depsLoop
    rcases loadScript cfg (resolveDependencyPath cfg dep) with e | dscript
    · exact ⟨rfl, rfl, rfl⟩
    · simp only
      by_cases hmem : st.contains dscript.dependency_path
      · simp only [hmem, if_true]
        exact ih st
      · simp only [hmem, Bool.false_eq_true, if_false, hmd, Bool.not_false, if_true]
        exact ⟨by trivial, by trivial, by trivial⟩

theorem depsPhase_nomd {cfg : Config} {selfName : String}
    {upFn upFn2 : List String → Script → RunRes} (hmd : cfg.migrateDependencies = false) :
    ∀ deps st, (depsPhase cfg selfName upFn st deps).st = st ∧
      blockedOnly (depsPhase cfg selfName upFn st deps).tr = true ∧
      depsPhase cfg selfName upFn st deps = depsPhase cfg selfName upFn2 st deps := by
  intro deps st
  cases deps with
  | none => exact ⟨rfl, rfl, rfl⟩
  | some l => exact depsLoop_nomd hmd l st

/-- Blocked-dependency behaviour of Migrator.up: with
migrate_dependencies off, a script whose first unsatisfied dependency
loads to D returns normally with only the blocking log event, leaving
the record unchanged. -/
theorem up_blocked {cfg : Config} {st : List String} {S : Script}
    {pre : List String} {dep : String} {post : List String} {D : Script}
    (hmd : cfg.migrateDependencies = false)
    (hrun : st.contains S.filename = false)
    (hdeps : S.src.dependencies = some (pre ++ dep :: post))
    (hpre : ∀ d2 ∈ pre, depApplied cfg st d2 = true)
    (hload : loadScript cfg (resolveDependencyPath cfg dep) = .ok D)
    (hns : st.contains D.dependency_path = false) (fuel : Nat) :
    up cfg (fuel + 1) st S = ⟨st, [.blocked S.filename D.dependency_path], .ok⟩ := by
  simp only [up, hrun, Bool.false_eq_true, if_false, hdeps, depsPhase]
  rw [depsLoop_blocked hmd pre hpre hload hns]
  rfl

/-- After a normal completion of Migrator.up on a script whose two
identifiers coincide, running up again executes no unit body at all. -/
theorem up_twice_no_body {cfg : Config} {st : List String} {S : Script} {fuel1 fuel2 : Nat}
    (hh : S.filename = S.dependency_path)
    (h1 : (up cfg fuel1 st S).out = .ok) :
    ∀ X, Ev.runUp X ∉ (up cfg fuel2 (up cfg fuel1 st S).st S).tr := by
  intro X
  by_cases hdry : cfg.dryRun
  · exact blockedOnly_no_runUp (up_dry cfg hdry fuel2 _ S).2 X
  · have hdryf : cfg.dryRun = false := by
      revert hdry
      cases cfg.dryRun <;> simp
    rcases fuel1 with _ | k
    · simp [up] at h1
    · by_cases hrun : st.contains S.filename
      · rw [up_shortCircuit hrun k]
        rcases fuel2 with _ | k2
        · simp [up]
        · rw [up_shortCircuit hrun k2]
          simp
      · have hrunf : st.contains S.filename = false := by
          revert hrun
          cases st.contains S.filename <;> simp
        have hup1 : up cfg (k + 1) st S =
            execPhase cfg S (depsPhase cfg S.filename (up cfg k) st S.src.dependencies) := by
          simp only [up, hrunf, Bool.false_eq_true, if_false]
        rw [hup1] at h1 ⊢
        rcases hdo : (depsPhase cfg S.filename (up cfg k) st S.src.dependencies).out
          with _ | e
        · by_cases hp : (depsPhase cfg S.filename (up cfg k) st S.src.dependencies).proceed
          · by_cases hraise : S.src.upRaises
            · unfold execPhase at h1
              rw [hdo] at h1
              simp only [hp, Bool.not_true, Bool.false_eq_true, if_false, hdryf,
                Bool.not_false, if_true, hraise] at h1
              exact absurd h1 (by simp)
            · have hraise2 : S.src.upRaises = false := by
                revert hraise
                cases S.src.upRaises <;> simp
              have hst : (execPhase cfg S
                  (depsPhase cfg S.filename (up cfg k) st S.src.dependencies)).st =
                  storeId (depsPhase cfg S.filename (up cfg k) st S.src.dependencies).st
                    S.dependency_path := by
                unfold execPhase
                rw [hdo]
                simp only [hp, Bool.not_true, Bool.false_eq_true, if_false, hdryf,
                  Bool.not_false, if_true, hraise2]
              rw [hst]
              have hmem2 : S.filename ∈ storeId
                  (depsPhase cfg S.filename (up cfg k) st S.src.dependencies).st
                  S.dependency_path :=
                mem_storeId.mpr (Or.inr hh)
              rcases fuel2 with _ | k2
              · simp [up]
              · rw [up_shortCircuit (contains_true.mpr hmem2) k2]
                simp
          · by_cases hmd : cfg.migrateDependencies
            · exact absurd (depsPhase_md_proceed hmd S.src.dependencies st hdo) hp
            · have hmdf : cfg.migrateDependencies = false := by
                revert hmd
                cases cfg.migrateDependencies <;> simp
              obtain ⟨hdst, hdblk, hdeq⟩ :=
                @depsPhase_nomd cfg S.filename (up cfg k) (up cfg (fuel2 - 1)) hmdf
                  S.src.dependencies st
              have hpf : (depsPhase cfg S.filename (up cfg k) st S.src.dependencies).proceed
                  = false := by
                revert hp
                cases (depsPhase cfg S.filename (up cfg k) st S.src.dependencies).proceed <;>
                  simp
              have hex : execPhase cfg S
                  (depsPhase cfg S.filename (up cfg k) st S.src.dependencies) =
                  ⟨(depsPhase cfg S.filename (up cfg k) st S.src.dependencies).st,
                    (depsPhase cfg S.filename (up cfg k) st S.src.dependencies).tr, .ok⟩ := by
                unfold execPhase
                rw [hdo]
                simp only [hpf, Bool.not_false, if_true]
              rw [hex]
              simp only [hdst]
              rcases fuel2 with _ | k2
              · simp [up]
              · have hup2 : up cfg (k2 + 1) st S =
                    execPhase cfg S
                      (depsPhase cfg S.filename (up cfg k2) st S.src.dependencies) := by
                  simp only [up, hrunf, Bool.false_eq_true, if_false]
                rw [hup2]
                have hdeq2 : depsPhase cfg S.filename (up cfg k2) st S.src.dependencies =
                    depsPhase cfg S.filename (up cfg k) st S.src.dependencies := by
                  have := @depsPhase_nomd cfg S.filename (up cfg k2) (up cfg k) hmdf
                    S.src.dependencies st
                  exact this.2.2
                rw [hdeq2, hex]
                intro hmem
                exact absurd (List.all_eq_true.mp hdblk _ hmem) (by simp)
        · unfold execPhase at h1
          rw [hdo] at h1
          exact absurd h1 (by simp)

/-- A unit that returns normally does not stop the migrate loop: the
remaining files are processed from the state it left. -/
theorem migrateLoop_cons_ok {cfg : Config} {fuel : Nat} {st : List String} {f : String}
    {rest : List String} (hok : (migrateUpPath cfg fuel st f).out = .ok) :
    migrateLoop cfg fuel st (f :: rest) =
      ⟨(migrateLoop cfg fuel (migrateUpPath cfg fuel st f).st rest).st,
        (migrateUpPath cfg fuel st f).tr ++
          (migrateLoop cfg fuel (migrateUpPath cfg fuel st f).st rest).tr,
        (migrateLoop cfg fuel (migrateUpPath cfg fuel st f).st rest).out⟩ := by
  simp only [migrateLoop, hok]

/-! ## Duplicate detection -/

/-- Some element of the list occurs again later in it. -/
def listHasDup : List String → Bool
  | [] => false
  | x :: xs => xs.contains x || listHasDup xs

/-- The basename-without-extension key discovery validates on. -/
def nameOf (f : String) : String := pyReplace (basename f) ".py" ""

/-- The timestamp key discovery validates on. -/
def tsKey (f : String) : String := fileTs (nameOf f)

/-- A duplicate basename or duplicate timestamp occurs among the files. -/
def hasDupB (files : List String) : Bool :=
  listHasDup (files.map nameOf) || listHasDup (files.map tsKey)

theorem validateFiles_error :
    ∀ files seenN seenT,
      ((files.map nameOf).any seenN.contains ||
        listHasDup (files.map nameOf) ||
        (files.map tsKey).any seenT.contains ||
        listHasDup (files.map tsKey)) = true →
      ∃ e, validateFiles seenN seenT files = .error e := by
  intro files
  induction files with
  | nil =>
    intro seenN seenT h
    simp [listHasDup] at h
  | cons f rest ih =>
    intro seenN seenT h
    unfold validateFiles
    by_cases hn : seenN.contains (pyReplace (basename f) ".py" "")
    · rw [if_pos hn]
      exact ⟨_, rfl⟩
    · rw [if_neg hn]
      by_cases ht : seenT.contains (fileTs (pyReplace (basename f) ".py" ""))
      · rw [if_pos ht]
        exact ⟨_, rfl⟩
      · rw [if_neg ht]
        apply ih
        have hn2 : nameOf f ∉ seenN := fun hc => hn (contains_true.mpr hc)
        have ht2 : tsKey f ∉ seenT := fun hc => ht (contains_true.mpr hc)
        simp only [List.map_cons, List.any_cons, listHasDup, Bool.or_eq_true,
          List.any_eq_true, contains_true, List.mem_cons] at h ⊢
        rcases h with (((h | h) | (h | h)) | (h | h)) | (h | h)
        · exact absurd h hn2
        · obtain ⟨n, hmem, hc⟩ := h
          exact Or.inl (Or.inl (Or.inl ⟨n, hmem, Or.inr hc⟩))
        · exact Or.inl (Or.inl (Or.inl ⟨nameOf f, h, Or.inl rfl⟩))
        · exact Or.inl (Or.inl (Or.inr h))
        · exact absurd h ht2
        · obtain ⟨n, hmem, hc⟩ := h
          exact Or.inl (Or.inr ⟨n, hmem, Or.inr hc⟩)
        · exact Or.inl (Or.inr ⟨tsKey f, h, Or.inl rfl⟩)
        · exact Or.inr h

/-- A duplicate name or timestamp in the collected files makes discovery
fail. -/
theorem findAll_dup_error {dir : String} {root : List FSNode} {dir2 : String}
    {files : List String} (hc : collectFiles dir root = .ok (dir2, files))
    (hdup : hasDupB files = true) :
    ∃ e, findAllMigrationFiles dir root = .error e := by
  unfold findAllMigrationFiles
  rw [hc]
  simp only
  obtain ⟨e, he⟩ := validateFiles_error files [] [] (by
    simp only [hasDupB, Bool.or_eq_true] at hdup
    simp only [Bool.or_eq_true]
    rcases hdup with h3 | h3
    · exact Or.inl (Or.inl (Or.inr h3))
    · exact Or.inr h3)
  rw [he]
  exact ⟨e, rfl⟩

/-! ## Lexicographic order versus timestamps -/

theorem chLt_cons {a b : Char} {as bs : List Char} :
    chLt (a :: as) (b :: bs) = if a < b then true else if b < a then false else chLt as bs := by
  rfl

theorem chLt_irrefl : ∀ l, chLt l l = false := by
  intro l
  induction l with
  | nil => rfl
  | cons a as ih => simp [chLt_cons, ih]

theorem chLt_trans : ∀ {a b c : List Char},
    chLt a b = true → chLt b c = true → chLt a c = true := by
  intro a
  induction a with
  | nil =>
    intro b c h1 h2
    cases b with
    | nil => exact h2
    | cons y bs =>
      cases c with
      | nil => simp [chLt] at h2
      | cons z cs => rfl
  | cons x as ih =>
    intro b c h1 h2
    cases b with
    | nil => simp [chLt] at h1
    | cons y bs =>
      cases c with
      | nil => simp [chLt] at h2
      | cons z cs =>
        rw [chLt_cons] at h1 h2 ⊢
        rcases lt_trichotomy x y with hxy | hxy | hxy
        · rcases lt_trichotomy y z with hyz | hyz | hyz
          · rw [if_pos (lt_trans hxy hyz)]
          · subst hyz
            rw [if_pos hxy]
          · rw [if_pos hyz, if_neg (lt_asymm hyz)] at h2
            simp at h2
        · subst hxy
          rw [if_neg (lt_irrefl x), if_neg (lt_irrefl x)] at h1
          rcases lt_trichotomy x z with hxz | hxz | hxz
          · rw [if_pos hxz]
          · subst hxz
            rw [if_neg (lt_irrefl x), if_neg (lt_irrefl x)] at h2 ⊢
            exact ih h1 h2
          · rw [if_neg (asymm hxz), if_pos hxz] at h2
            simp at h2
        · rw [if_neg (lt_asymm hxy), if_pos hxy] at h1
          simp at h1

theorem chLt_asymm : ∀ {a b : List Char}, chLt a b = true → chLt b a = false := by
  intro a b h
  by_contra hc
  have h2 : chLt b a = true := by
    revert hc
    cases chLt b a <;> simp
  have := chLt_trans h h2
  rw [chLt_irrefl] at this
  exact absurd this (by simp)

theorem chLt_connex : ∀ {a b : List Char}, a ≠ b →
    chLt a b = true ∨ chLt b a = true := by
  intro a
  induction a with
  | nil =>
    intro b hne
    cases b with
    | nil => exact absurd rfl hne
    | cons y bs => exact Or.inl rfl
  | cons x as ih =>
    intro b hne
    cases b with
    | nil => exact Or.inr rfl
    | cons y bs =>
      rw [chLt_cons, chLt_cons]
      rcases lt_trichotomy x y with hxy | hxy | hxy
      · exact Or.inl (by rw [if_pos hxy])
      · subst hxy
        have hne2 : as ≠ bs := fun h => hne (by rw [h])
        rcases ih hne2 with h | h
        · exact Or.inl (by rw [if_neg (lt_irrefl x), if_neg (lt_irrefl x)]; exact h)
        · exact Or.inr (by rw [if_neg (lt_irrefl x), if_neg (lt_irrefl x)]; exact h)
      · exact Or.inr (by rw [if_pos hxy])

theorem chLt_append_same : ∀ p a b, chLt (p ++ a) (p ++ b) = chLt a b := by
  intro p
  induction p with
  | nil => intro a b; rfl
  | cons c cs ih =>
    intro a b
    simp only [List.cons_append, chLt_cons, if_neg (lt_irrefl c)]
    exact ih a b

/-- With distinct, equal-length leading blocks, the lexicographic order
of the whole strings is that of the blocks. -/
theorem chLt_block : ∀ {t1 t2 : List Char}, t1.length = t2.length → t1 ≠ t2 →
    ∀ r1 r2, chLt (t1 ++ r1) (t2 ++ r2) = chLt t1 t2 := by
  intro t1
  induction t1 with
  | nil =>
    intro t2 hlen hne
    cases t2 with
    | nil => exact absurd rfl hne
    | cons y bs => simp at hlen
  | cons x as ih =>
    intro t2 hlen hne
    cases t2 with
    | nil => simp at hlen
    | cons y bs =>
      intro r1 r2
      simp only [List.cons_append, chLt_cons]
      rcases lt_trichotomy x y with hxy | hxy | hxy
      · rw [if_pos hxy, if_pos hxy]
      · subst hxy
        simp only [if_neg (lt_irrefl x)]
        have hne2 : as ≠ bs := fun h => hne (by rw [h])
        exact ih (by simpa using hlen) hne2 r1 r2
      · simp only [if_neg (asymm hxy), if_pos hxy]

theorem digitsVal_lt_pow : ∀ {l : List Char}, (∀ c ∈ l, c.isDigit = true) →
    digitsVal l < 10 ^ l.length := by
  intro l
  induction l with
  | nil => intro _; simp [digitsVal]
  | cons c cs ih =>
    intro h
    have hc := h c (List.mem_cons_self c cs)
    have hd : c.toNat - 48 ≤ 9 := by
      unfold Char.isDigit at hc
      simp only [Bool.and_eq_true, decide_eq_true_eq] at hc
      have h9 : c ≤ '9' := hc.2
      have : c.toNat ≤ 57 := h9
      omega
    have htail := ih (fun d hd2 => h d (List.mem_cons_of_mem c hd2))
    simp only [digitsVal, List.length_cons, pow_succ]
    have hpow : 0 < 10 ^ cs.length := Nat.pos_pow_of_pos cs.length (by omega)
    calc (c.toNat - 48) * 10 ^ cs.length + digitsVal cs
        < (c.toNat - 48) * 10 ^ cs.length + 10 ^ cs.length := by omega
      _ = (c.toNat - 48 + 1) * 10 ^ cs.length := by ring
      _ ≤ 10 * 10 ^ cs.length := by
          exact Nat.mul_le_mul_right _ (by omega)
      _ = 10 ^ cs.length * 10 := by ring

/-- On equal-length digit blocks, code-point order is numeric order. -/
theorem chLt_digitsVal : ∀ {t1 t2 : List Char}, t1.length = t2.length →
    (∀ c ∈ t1, c.isDigit = true) → (∀ c ∈ t2, c.isDigit = true) →
    chLt t1 t2 = true → digitsVal t1 < digitsVal t2 := by
  intro t1
  induction t1 with
  | nil =>
    intro t2 hlen _ _ hlt
    cases t2 with
    | nil => simp [chLt] at hlt
    | cons y bs => simp at hlen
  | cons x as ih =>
    intro t2 hlen h1 h2 hlt
    cases t2 with
    | nil => simp [chLt] at hlt
    | cons y bs =>
      have hlen2 : as.length = bs.length := by simpa using hlen
      have hx := h1 x (List.mem_cons_self x as)
      have hy := h2 y (List.mem_cons_self y bs)
      have hx48 : 48 ≤ x.toNat := by
        unfold Char.isDigit at hx
        simp only [Bool.and_eq_true, decide_eq_true_eq] at hx
        have : '0' ≤ x := hx.1
        have h0 : (48 : Nat) ≤ x.toNat := this
        exact h0
      have hy48 : 48 ≤ y.toNat := by
        unfold Char.isDigit at hy
        simp only [Bool.and_eq_true, decide_eq_true_eq] at hy
        have : '0' ≤ y := hy.1
        have h0 : (48 : Nat) ≤ y.toNat := this
        exact h0
      rw [chLt_cons] at hlt
      simp only [digitsVal, ← hlen2]
      rcases lt_trichotomy x y with hxy | hxy | hxy
      · have hv : x.toNat < y.toNat := hxy
        have hbound := digitsVal_lt_pow (fun c hc => h1 c (List.mem_cons_of_mem x hc))
        have hsucc : x.toNat - 48 + 1 ≤ y.toNat - 48 := by omega
        calc (x.toNat - 48) * 10 ^ as.length + digitsVal as
            < (x.toNat - 48) * 10 ^ as.length + 10 ^ as.length := by
              have := hbound
              omega
          _ = (x.toNat - 48 + 1) * 10 ^ as.length := by ring
          _ ≤ (y.toNat - 48) * 10 ^ as.length := Nat.mul_le_mul_right _ hsucc
          _ ≤ (y.toNat - 48) * 10 ^ as.length + digitsVal bs := Nat.le_add_right _ _
        -- lengths were aligned by hlen2 above
      · subst hxy
        rw [if_neg (lt_irrefl x), if_neg (lt_irrefl x)] at hlt
        have := ih hlen2 (fun c hc => h1 c (List.mem_cons_of_mem x hc))
          (fun c hc => h2 c (List.mem_cons_of_mem x hc)) hlt
        omega
      · rw [if_neg (asymm hxy), if_pos hxy] at hlt
        simp at hlt

/-! ## Sorted paths and ascending timestamps -/

theorem strLe_trans2 : ∀ a b c : String,
    strLe a b = true → strLe b c = true → strLe a c = true := by
  intro a b c h1 h2
  unfold strLe strLt at h1 h2 ⊢
  simp only [Bool.not_eq_true'] at h1 h2 ⊢
  by_contra hc
  have hca : chLt c.data a.data = true := by
    revert hc
    cases chLt c.data a.data <;> simp
  by_cases heq : a.data = b.data
  · rw [← heq] at h2
    rw [h2] at hca
    exact absurd hca (by simp)
  · rcases chLt_connex heq with h | h
    · have := chLt_trans hca h
      rw [h2] at this
      exact absurd this (by simp)
    · rw [h1] at h
      exact absurd h (by simp)

theorem strLe_total2 : ∀ a b : String, (strLe a b || strLe b a) = true := by
  intro a b
  unfold strLe strLt
  by_cases h : chLt b.data a.data
  · rw [chLt_asymm h]
    simp
  · simp only [Bool.or_eq_true, Bool.not_eq_true']
    left
    revert h
    cases chLt b.data a.data <;> simp

theorem strLe_of_not_strLt {x y : String} (h : strLt y x = false) : strLe x y = true := by
  unfold strLe
  rw [h]
  rfl

theorem strLe_of_strLt {x y : String} (h : strLt y x = true) : strLe y x = true := by
  unfold strLe
  unfold strLt at h ⊢
  rw [chLt_asymm h]
  rfl

theorem mem_insertSorted {x z : String} : ∀ {l : List String},
    z ∈ insertSorted x l ↔ z = x ∨ z ∈ l := by
  intro l
  induction l with
  | nil => simp [insertSorted]
  | cons y ys ih =>
    unfold insertSorted
    by_cases h : strLt y x
    · simp only [h, if_true, List.mem_cons, ih]
      tauto
    · simp only [h, Bool.false_eq_true, if_false, List.mem_cons]

theorem insertSorted_perm (x : String) : ∀ l : List String,
    (insertSorted x l).Perm (x :: l) := by
  intro l
  induction l with
  | nil => exact List.Perm.refl _
  | cons y ys ih =>
    unfold insertSorted
    by_cases h : strLt y x
    · simp only [h, if_true]
      exact (List.Perm.cons y ih).trans (List.Perm.swap x y ys)
    · simp only [h, Bool.false_eq_true, if_false]
      exact List.Perm.refl _

theorem insertSorted_pairwise (x : String) : ∀ {l : List String},
    l.Pairwise (fun a b => strLe a b = true) →
    (insertSorted x l).Pairwise (fun a b => strLe a b = true) := by
  intro l
  induction l with
  | nil => intro _; simp [insertSorted]
  | cons y ys ih =>
    intro h
    rcases List.pairwise_cons.mp h with ⟨hy, hys⟩
    unfold insertSorted
    by_cases hlt : strLt y x
    · simp only [hlt, if_true]
      refine List.pairwise_cons.mpr ⟨?_, ih hys⟩
      intro z hz
      rcases mem_insertSorted.mp hz with hz | hz
      · subst hz
        exact strLe_of_strLt hlt
      · exact hy z hz
    · simp only [hlt, Bool.false_eq_true, if_false]
      refine List.pairwise_cons.mpr ⟨?_, h⟩
      intro z hz
      have hxy : strLe x y = true := strLe_of_not_strLt (by
        revert hlt
        cases strLt y x <;> simp)
      rcases List.mem_cons.mp hz with hz | hz
      · subst hz
        exact hxy
      · exact strLe_trans2 x y z hxy (hy z hz)

theorem pySorted_sorted (l : List String) :
    (pySorted l).Pairwise (fun a b => strLe a b = true) := by
  induction l with
  | nil => simp [pySorted]
  | cons a as ih => exact insertSorted_pairwise a ih

theorem pySorted_perm (l : List String) : (pySorted l).Perm l := by
  induction l with
  | nil => exact List.Perm.refl _
  | cons a as ih =>
    exact (insertSorted_perm a (pySorted as)).trans (List.Perm.cons a ih)

/-- The directory part that pjoin prepends: the directory, slash-
terminated. -/
def dirSlash (d : String) : String :=
  if d = "" then "" else if strEndsWith d "/" then d else d ++ "/"

theorem pjoin_data {d n : String} (hn : ('/' : Char) ∉ n.data) :
    (pjoin d n).data = (dirSlash d).data ++ n.data := by
  unfold pjoin dirSlash
  have hstart : strStartsWith n "/" = false := by
    unfold strStartsWith
    by_cases h : ['/'].isPrefixOf n.data
    · exact absurd (( List.isPrefixOf_iff_prefix.mp h).mem (List.mem_singleton_self _)) hn
    · revert h
      cases ['/'].isPrefixOf n.data <;> simp
  rw [hstart]
  simp only [Bool.false_eq_true, if_false]
  by_cases hd : d = ""
  · simp [hd]
  · simp only [hd, if_false]
    by_cases hs : strEndsWith d "/"
    · simp [hs, String.data_append]
    · simp only [hs, Bool.false_eq_true, if_false, String.data_append]

theorem dirSlash_shape (d : String) :
    (dirSlash d).data = [] ∨ ∃ l, (dirSlash d).data = l ++ ['/'] := by
  unfold dirSlash
  by_cases hd : d = ""
  · simp [hd]
  · simp only [hd, if_false]
    by_cases hs : strEndsWith d "/"
    · simp only [hs, if_true]
      unfold strEndsWith at hs
      obtain ⟨l, hl⟩ := (List.isSuffixOf_iff_suffix.mp hs)
      exact Or.inr ⟨l, hl.symm⟩
    · simp only [hs, Bool.false_eq_true, if_false, String.data_append]
      exact Or.inr ⟨d.data, by simp⟩

theorem takeWhile_append_all {p : Char → Bool} :
    ∀ {l1 l2 : List Char}, (∀ c ∈ l1, p c = true) →
      List.takeWhile p (l1 ++ l2) = l1 ++ List.takeWhile p l2 := by
  intro l1
  induction l1 with
  | nil => intro l2 _; simp
  | cons c cs ih =>
    intro l2 h
    simp only [List.cons_append, List.takeWhile_cons, h c (List.mem_cons_self c cs), if_true]
    rw [ih (fun x hx => h x (List.mem_cons_of_mem c hx))]

/-- basename of a slash-terminated prefix followed by a slash-free name
is the name. -/
theorem basename_concat {x : List Char} {n : String}
    (hx : x = [] ∨ ∃ l, x = l ++ ['/']) (hn : ('/' : Char) ∉ n.data) :
    basename ⟨x ++ n.data⟩ = n := by
  unfold basename
  simp only [List.reverse_append]
  have hall : ∀ c ∈ n.data.reverse, (fun c => decide (c ≠ '/')) c = true := by
    intro c hc
    simp only [decide_eq_true_eq]
    intro he
    exact hn (by rw [← he]; exact List.mem_reverse.mp hc)
  rw [takeWhile_append_all hall]
  have hx2 : List.takeWhile (fun c => decide (c ≠ '/')) x.reverse = [] := by
    rcases hx with h | ⟨l, hl⟩
    · simp [h]
    · subst hl
      simp [List.reverse_append]
  rw [hx2]
  simp

theorem basename_pjoin {d n : String} (hn : ('/' : Char) ∉ n.data) :
    basename (pjoin d n) = n := by
  have h1 : pjoin d n = ⟨(dirSlash d).data ++ n.data⟩ := by
    have := @pjoin_data d n hn
    cases hpj : pjoin d n with
    | mk l =>
      rw [hpj] at this
      simp only at this
      rw [this]
  rw [h1]
  exact basename_concat (dirSlash_shape d) hn

theorem isMigrationFile_len {n : String} (h : isMigrationFile n = true) :
    18 ≤ n.data.length := by
  unfold isMigrationFile at h
  simp only [Bool.and_eq_true, decide_eq_true_eq] at h
  exact h.1.1.1

theorem isMigrationFile_digits {n : String} (h : isMigrationFile n = true) :
    ∀ c ∈ n.data.take 14, c.isDigit = true := by
  unfold isMigrationFile at h
  simp only [Bool.and_eq_true, decide_eq_true_eq] at h
  exact fun c hc => List.all_eq_true.mp h.1.1.2 c hc

/-- Lexicographic full-path sort of same-directory migration files with
pairwise-distinct 14-digit prefixes lists them in strictly ascending
numeric timestamp order. -/
theorem sorted_paths_ts_ascending (d : String) (names : List String)
    (hmig : ∀ n ∈ names, isMigrationFile n = true)
    (hslash : ∀ n ∈ names, ('/' : Char) ∉ n.data)
    (hdist : names.Pairwise (fun a b => a.data.take 14 ≠ b.data.take 14)) :
    (pySorted (names.map (pjoin d))).Pairwise (fun a b =>
      digitsVal ((basename a).data.take 14) < digitsVal ((basename b).data.take 14)) := by
  have hsorted := pySorted_sorted (names.map (pjoin d))
  have hperm := pySorted_perm (names.map (pjoin d))
  have hdistM : (names.map (pjoin d)).Pairwise (fun a b =>
      ∃ n1 ∈ names, ∃ n2 ∈ names, a = pjoin d n1 ∧ b = pjoin d n2 ∧
        n1.data.take 14 ≠ n2.data.take 14) := by
    rw [List.pairwise_map]
    refine List.Pairwise.imp_of_mem ?_ hdist
    intro n1 n2 h1 h2 hne
    exact ⟨n1, h1, n2, h2, rfl, rfl, hne⟩
  have hsymm : Symmetric (fun a b : String =>
      ∃ n1 ∈ names, ∃ n2 ∈ names, a = pjoin d n1 ∧ b = pjoin d n2 ∧
        n1.data.take 14 ≠ n2.data.take 14) := by
    intro a b ⟨n1, h1, n2, h2, ha, hb, hne⟩
    exact ⟨n2, h2, n1, h1, hb, ha, hne.symm⟩
  have hdistP := (List.Perm.pairwise_iff (fun {x y} h => hsymm h) hperm).mpr hdistM
  refine List.Pairwise.imp ?_ (hsorted.and hdistP)
  intro a b ⟨hle, n1, h1, n2, h2, ha, hb, hne⟩
  subst ha
  subst hb
  rw [basename_pjoin (hslash n1 h1), basename_pjoin (hslash n2 h2)]
  have hlt : chLt (n2.data.take 14) (n1.data.take 14) = false := by
    have hchain : chLt (pjoin d n2).data (pjoin d n1).data = false := by
      unfold strLe strLt at hle
      simp only [Bool.not_eq_true'] at hle
      exact hle
    rw [@pjoin_data d n1 (hslash n1 h1), @pjoin_data d n2 (hslash n2 h2)] at hchain
    rw [chLt_append_same] at hchain
    have hdec1 : n1.data = n1.data.take 14 ++ n1.data.drop 14 :=
      (List.take_append_drop 14 n1.data).symm
    have hdec2 : n2.data = n2.data.take 14 ++ n2.data.drop 14 :=
      (List.take_append_drop 14 n2.data).symm
    rw [hdec1, hdec2] at hchain
    have hlen : (n2.data.take 14).length = (n1.data.take 14).length := by
      rw [List.length_take, List.length_take]
      have hl1 := isMigrationFile_len (hmig n1 h1)
      have hl2 := isMigrationFile_len (hmig n2 h2)
      omega
    rw [chLt_block hlen hne.symm] at hchain
    exact hchain
  have hfwd : chLt (n1.data.take 14) (n2.data.take 14) = true := by
    rcases chLt_connex hne with h | h
    · exact h
    · rw [hlt] at h
      exact absurd h (by simp)
  refine chLt_digitsVal ?_ (isMigrationFile_digits (hmig n1 h1))
    (isMigrationFile_digits (hmig n2 h2)) hfwd
  rw [List.length_take, List.length_take]
  have hl1 := isMigrationFile_len (hmig n1 h1)
  have hl2 := isMigrationFile_len (hmig n2 h2)
  omega

/-! ## Migrate applies the sorted list in order -/

/-- The filename the loader would assign to the unit at a discovered
path, when it loads. -/
def loadedFilename (cfg : Config) (f : String) : Option String :=
  match loadScript cfg (pjoin cfg.directory f) with
  | .ok S => some S.filename
  | .error _ => none

/-- A discovered path loads to a dependency-free, non-raising unit whose
two identifiers agree and which is not yet applied. -/
def goodLoad (cfg : Config) (st : List String) (f : String) : Bool :=
  match loadScript cfg (pjoin cfg.directory f) with
  | .error _ => false
  | .ok S => (S.src.dependencies == none) && !S.src.upRaises
      && (S.filename == S.dependency_path) && !(st.contains S.filename)

/-- The filenames whose up bodies execute, in trace order. -/
def runUpFilenames (tr : List Ev) : List String :=
  tr.filterMap fun e => match e with
    | .runUp S => some S.filename
    | _ => none

theorem up_nodeps {cfg : Config} {st : List String} {S : Script} {fuel : Nat}
    (hdeps : S.src.dependencies = none) (hraise : S.src.upRaises = false)
    (hdry : cfg.dryRun = false) (hrun : st.contains S.filename = false) :
    up cfg (fuel + 1) st S =
      ⟨storeId st S.dependency_path, [.runUp S, .store S.dependency_path], .ok⟩ := by
  simp only [up, hrun, Bool.false_eq_true, if_false, hdeps, depsPhase, execPhase,
    Bool.not_true, hdry, Bool.not_false, if_true, hraise, Bool.false_eq_true, if_false,
    List.nil_append]

/-- Over a list of paths that all load to fresh, dependency-free units
with pairwise-distinct filenames, the migrate loop executes exactly one
body per path, in list order. -/
theorem migrateLoop_order (cfg : Config) (fuel : Nat) (hdry : cfg.dryRun = false) :
    ∀ fs st, (∀ f ∈ fs, goodLoad cfg st f = true) →
      fs.Pairwise (fun f g => loadedFilename cfg f ≠ loadedFilename cfg g) →
      runUpFilenames (migrateLoop cfg (fuel + 1) st fs).tr =
        fs.filterMap (loadedFilename cfg) ∧
      (migrateLoop cfg (fuel + 1) st fs).out = .ok := by
  intro fs
  induction fs with
  | nil => intro st _ _; exact ⟨rfl, rfl⟩
  | cons f rest ih =>
    intro st hgood hpair
    have hf := hgood f (List.mem_cons_self f rest)
    unfold goodLoad at hf
    rcases hload : loadScript cfg (pjoin cfg.directory f) with e | S
    · rw [hload] at hf
      simp at hf
    · rw [hload] at hf
      simp only [Bool.and_eq_true, beq_iff_eq, Bool.not_eq_true'] at hf
      obtain ⟨⟨⟨hdeps, hraise⟩, hfd⟩, hnotin⟩ := hf
      have hupPath : migrateUpPath cfg (fuel + 1) st f =
          ⟨storeId st S.dependency_path, [.runUp S, .store S.dependency_path], .ok⟩ := by
        unfold migrateUpPath
        rw [hload]
        exact up_nodeps hdeps hraise hdry hnotin
      have hok : (migrateUpPath cfg (fuel + 1) st f).out = .ok := by rw [hupPath]
      rw [migrateLoop_cons_ok hok]
      rw [hupPath]
      have hrest := ih (storeId st S.dependency_path) (by
        intro g hg
        have hgg := hgood g (List.mem_cons_of_mem f hg)
        unfold goodLoad at hgg ⊢
        rcases hload2 : loadScript cfg (pjoin cfg.directory g) with e2 | S2
        · rw [hload2] at hgg
          simp at hgg
        · rw [hload2] at hgg
          simp only [Bool.and_eq_true, beq_iff_eq, Bool.not_eq_true'] at hgg ⊢
          refine ⟨hgg.1, ?_⟩
          have hne : loadedFilename cfg f ≠ loadedFilename cfg g :=
            (List.pairwise_cons.mp hpair).1 g hg
          unfold loadedFilename at hne
          rw [hload, hload2] at hne
          change some S.filename ≠ some S2.filename at hne
          have hne2 : S2.filename ≠ S.filename := fun hc => hne (by rw [hc])
          have hmem : S2.filename ∉ storeId st S.dependency_path := by
            intro hm
            rcases mem_storeId.mp hm with hm | hm
            · exact absurd (contains_true.mpr hm) (by rw [hgg.2]; simp)
            · rw [← hfd] at hm
              exact hne2 hm
          revert hmem
          cases hc : (storeId st S.dependency_path).contains S2.filename
          · intro _; rfl
          · intro hmem
            exact absurd (contains_true.mp hc) hmem)
        (List.pairwise_cons.mp hpair).2
      constructor
      · simp only [runUpFilenames, List.filterMap_append] at hrest ⊢
        rw [hrest.1]
        simp only [List.filterMap_cons]
        unfold loadedFilename
        rw [hload]
        rfl
      · exact hrest.2

/-! ## Claim C1 -/

def exEnvC1 : String → Option ScriptSrc := fun p =>
  if p = "/app/20240410094004_migration.py" then some ⟨none, false, false⟩
  else if p = "/app/20240410094006_migration.py" then some ⟨none, false, false⟩
  else none

def exCfgC1 : Config := ⟨"/app", false, true, exEnvC1⟩

def exRootC1 : List FSNode :=
  [.file "20240410094004_migration.py", .file "20240410094006_migration.py"]

def exStC1 : List String := ["20240410094004_migration", "20240410094006_migration"]

def exS04 : Script :=
  ⟨⟨none, false, false⟩, "/app/20240410094004_migration.py",
    "20240410094004_migration", "20240410094004_migration"⟩

/-- Claim C1 (code bug exhibited): with two units applied,
20240410094004 before 20240410094006, rollback(1) is documented to
reverse the last (most recent) migration, 20240410094006; the code
instead reverses the least recent one: get_last_n sorts descending and
takes the slice items[-n:], the tail of the descending order, so the
single reversed unit is 20240410094004. -/
theorem rollback_one_reverses_oldest :
    rollback exCfgC1 exRootC1 exStC1 1 =
      ⟨["20240410094006_migration"],
        [.runDown exS04, .delete "20240410094004_migration"], .ok⟩ ∧
    getLastN exStC1 1 = ["20240410094004_migration"] := by
  decide

/-! ## Claim C2 -/

def exEnvC2 : String → Option ScriptSrc := fun p =>
  if p = "/app/b/migrations/20240410094004_m1.py" then some ⟨none, false, false⟩
  else if p = "/app/a/migrations/20240410094006_m2.py" then some ⟨none, false, false⟩
  else none

def exCfgC2 : Config := ⟨"/app", false, true, exEnvC2⟩

def exRootC2 : List FSNode :=
  [.dir "b" [.dir "migrations" [.file "20240410094004_m1.py"]],
   .dir "a" [.dir "migrations" [.file "20240410094006_m2.py"]]]

/-- Claim C2 is false as stated for the module layout: with module b
holding timestamp 20240410094004 and module a holding 20240410094006 and
no dependencies, migrate() executes the bodies in lexicographic full-path
order, which runs the later timestamp first, so the lexicographic sort is
not equivalent to chronological order across modules. -/
theorem migrate_module_layout_descending :
    runUpFilenames (migrate exCfgC2 5 exRootC2 []).tr =
      ["a/migrations/20240410094006_m2", "b/migrations/20240410094004_m1"] ∧
    digitsVal ((basename "b/migrations/20240410094004_m1").data.take 14) <
      digitsVal ((basename "a/migrations/20240410094006_m2").data.take 14) := by
  decide

/-- Claim C2 (amended to single-directory layouts): migrate() runs the
discovered files in lexicographic full-path sorted order; for the flat
and migrations-subfolder layouts, where every discovered file is the
directory joined with a slash-free migration-pattern name and the
14-digit prefixes are pairwise distinct, that order is strictly
ascending numeric timestamp order; and over files that load to fresh
dependency-free units with distinct filenames the loop executes exactly
one body per file, in that order. -/
theorem migrate_single_directory_ascending :
    (∀ (cfg : Config) (fuel : Nat) (root : List FSNode) (st : List String)
      (dir2 : String) (files : List String),
      findAllMigrationFiles cfg.directory root = .ok (dir2, files) →
      migrate cfg fuel root st =
        migrateLoop { cfg with directory := dir2 } fuel st (pySorted files)) ∧
    (∀ (d : String) (names : List String), (∀ n ∈ names, isMigrationFile n = true) →
      (∀ n ∈ names, ('/' : Char) ∉ n.data) →
      names.Pairwise (fun a b => a.data.take 14 ≠ b.data.take 14) →
      (pySorted (names.map (pjoin d))).Pairwise (fun a b =>
        digitsVal ((basename a).data.take 14) < digitsVal ((basename b).data.take 14))) ∧
    (∀ (cfg : Config) (fuel : Nat) (fs : List String) (st : List String),
      cfg.dryRun = false →
      (∀ f ∈ fs, goodLoad cfg st f = true) →
      fs.Pairwise (fun f g => loadedFilename cfg f ≠ loadedFilename cfg g) →
      runUpFilenames (migrateLoop cfg (fuel + 1) st fs).tr =
        fs.filterMap (loadedFilename cfg)) := by
  refine ⟨?_, sorted_paths_ts_ascending, ?_⟩
  · intro cfg fuel root st dir2 files h
    unfold migrate
    rw [h]
  · intro cfg fuel fs st hdry hgood hpair
    exact (migrateLoop_order cfg fuel hdry fs st hgood hpair).1

def exEnvC2w : String → Option ScriptSrc := fun p =>
  if p = "/app/20240410094004_migration.py" then some ⟨none, false, false⟩
  else if p = "/app/20240410094006_migration.py" then some ⟨none, false, false⟩
  else none

def exCfgC2w : Config := ⟨"/app", false, true, exEnvC2w⟩

def exRootC2w : List FSNode :=
  [.file "20240410094004_migration.py", .file "20240410094006_migration.py"]

def exFsC2w : List String :=
  ["/app/20240410094004_migration.py", "/app/20240410094006_migration.py"]

def exNamesC2w : List String :=
  ["20240410094004_migration.py", "20240410094006_migration.py"]

theorem migrate_single_directory_ascending_witness :
    migrate exCfgC2w 5 exRootC2w [] = migrateLoop exCfgC2w 5 [] (pySorted exFsC2w) ∧
    (pySorted (exNamesC2w.map (pjoin "/app"))).Pairwise (fun a b =>
      digitsVal ((basename a).data.take 14) < digitsVal ((basename b).data.take 14)) ∧
    runUpFilenames (migrateLoop exCfgC2w (4 + 1) [] exFsC2w).tr =
      exFsC2w.filterMap (loadedFilename exCfgC2w) :=
  ⟨migrate_single_directory_ascending.1 exCfgC2w 5 exRootC2w [] "/app" exFsC2w rfl,
   migrate_single_directory_ascending.2.1 "/app" exNamesC2w (by decide) (by decide) (by decide),
   migrate_single_directory_ascending.2.2 exCfgC2w 4 exFsC2w [] rfl (by decide) (by decide)⟩

/-! ## Claim C3 -/

/-- Claim C3: with migrate_dependencies on, every trace of Migrator.up is
dependency-ordered: whenever a unit body executes, each of its loadable
dependency references is already applied at that point (under one of its
two identifiers) or a unit with the dependency's filename was executed
strictly earlier; since this holds of every body execution in the trace,
it holds transitively through the dependencies' own dependencies. -/
theorem up_dependency_before_dependent (cfg : Config) (fuel : Nat) (st : List String)
    (U : Script) (hmd : cfg.migrateDependencies = true) :
    GoodTrace cfg st (up cfg fuel st U).tr :=
  (up_good cfg fuel st U).1

def exEnvC3 : String → Option ScriptSrc := fun p =>
  if p = "/app/20240410094004_a.py" then some ⟨none, false, false⟩
  else if p = "/app/20240410094006_b.py" then
    some ⟨some ["20240410094004_a"], false, false⟩
  else none

def exCfgC3 : Config := ⟨"/app", false, true, exEnvC3⟩

def exSC3b : Script :=
  ⟨⟨some ["20240410094004_a"], false, false⟩, "/app/20240410094006_b.py",
    "20240410094006_b", "20240410094006_b"⟩

theorem up_dependency_before_dependent_witness :
    GoodTrace exCfgC3 [] (up exCfgC3 3 [] exSC3b).tr ∧
    runUpFilenames (up exCfgC3 3 [] exSC3b).tr =
      ["20240410094004_a", "20240410094006_b"] :=
  ⟨up_dependency_before_dependent exCfgC3 3 [] exSC3b rfl, by decide⟩

/-! ## Claim C4 -/

def exEnvC4x : String → Option ScriptSrc := fun p =>
  if p = "/2/20240410094004_migration.py" then some ⟨none, false, false⟩ else none

def exCfgC4x : Config := ⟨"/2", false, true, exEnvC4x⟩

def exSC4x : Script :=
  ⟨⟨none, false, false⟩, "/2/20240410094004_migration.py",
    "0240410094004_migration", "20240410094004_migration"⟩

/-- Claim C4 is false as stated: under root directory /2, the loader
computes the unit filename by deleting every occurrence of the directory
string from the path, which also deletes the /2 inside /2024...; the
filename and dependency_path identifiers then differ, the identifier
stored after the first run is never the one checked, and a second up run
executes the body again. -/
theorem up_twice_reexecutes_body :
    loadScript exCfgC4x "/2/20240410094004_migration.py" = .ok exSC4x ∧
    exSC4x.filename ≠ exSC4x.dependency_path ∧
    (up exCfgC4x 1 [] exSC4x).out = .ok ∧
    Ev.runUp exSC4x ∈ (up exCfgC4x 1 (up exCfgC4x 1 [] exSC4x).st exSC4x).tr :=
  ⟨rfl, by decide, by decide, by decide⟩

/-- Claim C4 (amended): a unit whose filename is recorded as applied
returns immediately from up with no body execution and no storage call;
and when the unit's two identifiers coincide (as in layouts where the
root string occurs in the full path only as its leading prefix), an up
run that completes without error leaves a state from which a second up
run executes no unit body. -/
theorem up_idempotent_short_circuit :
    (∀ cfg st (S : Script) fuel, st.contains S.filename = true →
      up cfg (fuel + 1) st S = ⟨st, [], .ok⟩) ∧
    (∀ cfg st (S : Script) fuel1 fuel2, S.filename = S.dependency_path →
      (up cfg fuel1 st S).out = .ok →
      ∀ X, Ev.runUp X ∉ (up cfg fuel2 (up cfg fuel1 st S).st S).tr) :=
  ⟨fun _ _ _ fuel h => up_shortCircuit h fuel,
   fun _ _ _ _ _ hh h1 => up_twice_no_body hh h1⟩

def exEnvC4w : String → Option ScriptSrc := fun p =>
  if p = "/app/20240410094004_migration.py" then some ⟨none, false, false⟩ else none

def exCfgC4w : Config := ⟨"/app", false, true, exEnvC4w⟩

def exSC4w : Script :=
  ⟨⟨none, false, false⟩, "/app/20240410094004_migration.py",
    "20240410094004_migration", "20240410094004_migration"⟩

theorem up_idempotent_short_circuit_witness :
    up exCfgC4w 1 ["20240410094004_migration"] exSC4w =
      ⟨["20240410094004_migration"], [], .ok⟩ ∧
    Ev.runUp exSC4w ∉ (up exCfgC4w 1 (up exCfgC4w 1 [] exSC4w).st exSC4w).tr :=
  ⟨up_idempotent_short_circuit.1 exCfgC4w ["20240410094004_migration"] exSC4w 0 (by decide),
   up_idempotent_short_circuit.2 exCfgC4w [] exSC4w 1 1 rfl (by decide) exSC4w⟩

/-! ## Claim C5 -/

/-- Claim C5: with dry_run on, an up run leaves the applied record
unchanged and its trace holds only blocked-dependency log lines, so no
unit body executes and no store call is issued, whatever the dependency
state; and a down run is a strict no-op with no body and no delete. -/
theorem dry_run_purity (cfg : Config) (fuel : Nat) (st : List String) (S S2 : Script)
    (hdry : cfg.dryRun = true) :
    (up cfg fuel st S).st = st ∧ blockedOnly (up cfg fuel st S).tr = true ∧
    down cfg st S2 = ⟨st, [], .ok⟩ :=
  ⟨(up_dry cfg hdry fuel st S).1, (up_dry cfg hdry fuel st S).2, down_dry cfg hdry st S2⟩

def exEnvC5 : String → Option ScriptSrc := fun p =>
  if p = "/app/20240410094004_a.py" then some ⟨none, false, false⟩
  else if p = "/app/20240410094006_b.py" then
    some ⟨some ["20240410094004_a"], false, false⟩
  else none

def exCfgC5 : Config := ⟨"/app", true, true, exEnvC5⟩

def exSC5b : Script :=
  ⟨⟨some ["20240410094004_a"], false, false⟩, "/app/20240410094006_b.py",
    "20240410094006_b", "20240410094006_b"⟩

theorem dry_run_purity_witness :
    (up exCfgC5 3 [] exSC5b).st = [] ∧ blockedOnly (up exCfgC5 3 [] exSC5b).tr = true ∧
    down exCfgC5 [] exSC5b = ⟨[], [], .ok⟩ :=
  dry_run_purity exCfgC5 3 [] exSC5b exSC5b rfl

/-! ## Claim C6 -/

/-- Claim C6: in every up run, a store event is emitted only immediately
after the successful (non-raising) up body of the unit whose
dependency_path it records, the final record is the initial one plus
exactly the stored identifiers, and a run that fails on a raising up body
ends its trace with that body execution, so nothing was stored for it; a
down run deletes only immediately after a successful down body, and when
the down body raises, the call returns the record exactly as it was with
the exception propagating. -/
theorem body_failure_preserves_record (cfg : Config) (fuel : Nat) (st : List String)
    (S S2 : Script) :
    storeAfterBody (up cfg fuel st S).tr ∧
    (∀ x, x ∈ (up cfg fuel st S).st ↔ x ∈ st ∨ Ev.store x ∈ (up cfg fuel st S).tr) ∧
    (∀ f, (up cfg fuel st S).out = .error (.upFailed f) →
      ∃ X, (up cfg fuel st S).tr.getLast? = some (.runUp X) ∧ X.filename = f ∧
        X.src.upRaises = true) ∧
    deleteAfterBody (down cfg st S2).tr ∧
    (S2.src.downRaises = true → st.contains S2.filename = true → cfg.dryRun = false →
      down cfg st S2 = ⟨st, [.runDown S2], .error (.downFailed S2.filename)⟩) :=
  ⟨(up_failSem cfg fuel st S).1, up_evol cfg fuel st S, (up_failSem cfg fuel st S).2,
   (down_failSem cfg st S2).1, (down_failSem cfg st S2).2⟩

def exEnvC6 : String → Option ScriptSrc := fun p =>
  if p = "/app/20240410094004_migration.py" then some ⟨none, true, true⟩ else none

def exCfgC6 : Config := ⟨"/app", false, true, exEnvC6⟩

def exSC6 : Script :=
  ⟨⟨none, true, true⟩, "/app/20240410094004_migration.py",
    "20240410094004_migration", "20240410094004_migration"⟩

theorem body_failure_preserves_record_witness :
    down exCfgC6 ["20240410094004_migration"] exSC6 =
      ⟨["20240410094004_migration"], [.runDown exSC6],
        .error (.downFailed "20240410094004_migration")⟩ ∧
    storeAfterBody (up exCfgC6 1 [] exSC6).tr :=
  ⟨(body_failure_preserves_record exCfgC6 1 ["20240410094004_migration"] exSC6 exSC6).2.2.2.2
      rfl (by decide) rfl,
   (body_failure_preserves_record exCfgC6 1 [] exSC6 exSC6).1⟩

/-! ## Claim C7 -/

/-- Claim C7: whenever the collected file list of a root holds two
entries sharing a basename (extension stripped) or sharing a leading
timestamp, including entries from different module folders, discovery
raises, and both migrate and rollback then return that error with an
empty trace, so no up or down body has executed. -/
theorem duplicate_discovery_fails_before_execution
    (cfg : Config) (fuel : Nat) (st : List String) (root : List FSNode) (n : Int)
    (dir2 : String) (files : List String)
    (hc : collectFiles cfg.directory root = .ok (dir2, files))
    (hdup : hasDupB files = true) :
    ∃ e, findAllMigrationFiles cfg.directory root = .error e ∧
      migrate cfg fuel root st = ⟨st, [], .error e⟩ ∧
      rollback cfg root st n = ⟨st, [], .error e⟩ := by
  obtain ⟨e, he⟩ := findAll_dup_error hc hdup
  refine ⟨e, he, ?_, ?_⟩
  · unfold migrate
    rw [he]
  · unfold rollback
    rw [he]

def exCfgC7 : Config := ⟨"/app", false, true, fun _ => none⟩

def exRootC7 : List FSNode :=
  [.dir "m1" [.dir "migrations" [.file "20240410094004_a.py"]],
   .dir "m2" [.dir "migrations" [.file "20240410094004_b.py"]]]

theorem duplicate_discovery_fails_before_execution_witness :
    ∃ e, findAllMigrationFiles "/app" exRootC7 = .error e ∧
      migrate exCfgC7 3 exRootC7 [] = ⟨[], [], .error e⟩ ∧
      rollback exCfgC7 exRootC7 [] 1 = ⟨[], [], .error e⟩ :=
  duplicate_discovery_fails_before_execution exCfgC7 3 [] exRootC7 1 "/app"
    ["/app/m1/migrations/20240410094004_a.py", "/app/m2/migrations/20240410094004_b.py"]
    rfl (by decide)

/-! ## Claim C8 -/

/-- Claim C8: with migrate_dependencies off, a unit whose earlier
dependency references are all applied and whose next reference loads to
an unapplied script D returns from up normally with only a log event
naming D as the blocking dependency; its own body does not run, nothing
is stored, the record is unchanged, and a migrate run over this unit
followed by further files continues processing those files from the same
state. -/
theorem blocked_dependency_skips_unit (cfg : Config) (st : List String) (U : Script)
    (pre : List String) (dep : String) (post : List String) (D : Script) (fuel : Nat)
    (hmd : cfg.migrateDependencies = false)
    (hrun : st.contains U.filename = false)
    (hdeps : U.src.dependencies = some (pre ++ dep :: post))
    (hpre : ∀ d2 ∈ pre, depApplied cfg st d2 = true)
    (hload : loadScript cfg (resolveDependencyPath cfg dep) = .ok D)
    (hns : st.contains D.dependency_path = false) :
    up cfg (fuel + 1) st U = ⟨st, [.blocked U.filename D.dependency_path], .ok⟩ ∧
    ∀ f rest, loadScript cfg (pjoin cfg.directory f) = .ok U →
      migrateLoop cfg (fuel + 1) st (f :: rest) =
        ⟨(migrateLoop cfg (fuel + 1) st rest).st,
          .blocked U.filename D.dependency_path :: (migrateLoop cfg (fuel + 1) st rest).tr,
          (migrateLoop cfg (fuel + 1) st rest).out⟩ := by
  have h1 := up_blocked hmd hrun hdeps hpre hload hns fuel
  refine ⟨h1, ?_⟩
  intro f rest hloadU
  have hpath : migrateUpPath cfg (fuel + 1) st f =
      ⟨st, [.blocked U.filename D.dependency_path], .ok⟩ := by
    unfold migrateUpPath
    rw [hloadU]
    exact h1
  have hok : (migrateUpPath cfg (fuel + 1) st f).out = .ok := by rw [hpath]
  rw [migrateLoop_cons_ok hok, hpath]
  rfl

def exEnvC8 : String → Option ScriptSrc := fun p =>
  if p = "/app/20240410094004_a.py" then some ⟨none, false, false⟩
  else if p = "/app/20240410094006_b.py" then
    some ⟨some ["20240410094004_a"], false, false⟩
  else none

def exCfgC8 : Config := ⟨"/app", false, false, exEnvC8⟩

def exSC8b : Script :=
  ⟨⟨some ["20240410094004_a"], false, false⟩, "/app/20240410094006_b.py",
    "20240410094006_b", "20240410094006_b"⟩

def exSC8a : Script :=
  ⟨⟨none, false, false⟩, "/app/20240410094004_a.py",
    "20240410094004_a", "20240410094004_a"⟩

theorem blocked_dependency_skips_unit_witness :
    up exCfgC8 1 [] exSC8b = ⟨[], [.blocked "20240410094006_b" "20240410094004_a"], .ok⟩ ∧
    ∀ f rest, loadScript exCfgC8 (pjoin exCfgC8.directory f) = .ok exSC8b →
      migrateLoop exCfgC8 1 [] (f :: rest) =
        ⟨(migrateLoop exCfgC8 1 [] rest).st,
          .blocked "20240410094006_b" "20240410094004_a" :: (migrateLoop exCfgC8 1 [] rest).tr,
          (migrateLoop exCfgC8 1 [] rest).out⟩ :=
  blocked_dependency_skips_unit exCfgC8 [] exSC8b [] "20240410094004_a" [] exSC8a 0
    rfl (by decide) rfl (by intro d2 h; simp at h) rfl (by decide)

/-! ## Claim C9 -/

def exEnvC9 : String → Option ScriptSrc := fun p =>
  if p = "/app/20240410094004_migration.py" then some ⟨none, false, false⟩
  else if p = "/app/20240410094006_migration.py" then some ⟨none, false, false⟩
  else none

def exCfgC9 : Config := ⟨"/app", false, true, exEnvC9⟩

def exRootC9 : List FSNode :=
  [.file "20240410094004_migration.py", .file "20240410094006_migration.py"]

def exS06C9 : Script :=
  ⟨⟨none, false, false⟩, "/app/20240410094006_migration.py",
    "20240410094006_migration", "20240410094006_migration"⟩

def exS04C9 : Script :=
  ⟨⟨none, false, false⟩, "/app/20240410094004_migration.py",
    "20240410094004_migration", "20240410094004_migration"⟩

/-- Claim C9 is false for the down command: main validates the numeric
argument only when the command is rollback, so down with the default
n = 0 passes straight into Migrator.rollback(0); there, every stored
identifier is fetched (items[-0:] is the whole list) and the counter
never equals 0, so the run reverses every applied unit. -/
theorem down_command_accepts_zero :
    mainDispatch "memory" "down" 0 none = .ranRollback 0 ∧
    rollback exCfgC9 exRootC9 ["20240410094004_migration", "20240410094006_migration"] 0 =
      ⟨[], [.runDown exS06C9, .delete "20240410094006_migration",
            .runDown exS04C9, .delete "20240410094004_migration"], .ok⟩ := by
  decide

/-- Claim C9 (amended): only the rollback command rejects n below 1
before entering the Migrator; the down command invokes
Migrator.rollback(n) with whatever n was parsed, for every n. -/
theorem rollback_command_rejects_low_n (n : Int) (file : Option String) (hn : n < 1) :
    mainDispatch "dynamodb" "rollback" n file =
      .exitError "Invalid number of migrations to rollback" ∧
    mainDispatch "memory" "rollback" n file =
      .exitError "Invalid number of migrations to rollback" ∧
    (∀ m : Int, mainDispatch "memory" "down" m none = .ranRollback m ∧
      mainDispatch "dynamodb" "down" m none = .ranRollback m) := by
  refine ⟨?_, ?_, ?_⟩
  · unfold mainDispatch
    rw [if_neg (by decide), if_pos ⟨rfl, hn⟩]
  · unfold mainDispatch
    rw [if_neg (by decide), if_pos ⟨rfl, hn⟩]
  · intro m
    constructor <;>
      · unfold mainDispatch
        rw [if_neg (by decide), if_neg (fun hc => by exact absurd hc.1 (by decide)),
          if_neg (by decide), if_pos (Or.inr rfl)]

theorem rollback_command_rejects_low_n_witness :
    mainDispatch "dynamodb" "rollback" 0 none =
      .exitError "Invalid number of migrations to rollback" ∧
    mainDispatch "memory" "rollback" 0 none =
      .exitError "Invalid number of migrations to rollback" ∧
    (∀ m : Int, mainDispatch "memory" "down" m none = .ranRollback m ∧
      mainDispatch "dynamodb" "down" m none = .ranRollback m) :=
  rollback_command_rejects_low_n 0 none (by decide)

/-! ## Claim C10 -/

/-- Claim C10: MemoryStorageEngine.delete raises exactly when the
identifier has never been stored (has_run false); under the precondition
has_run true, it succeeds and afterwards has_run is false. -/
theorem memory_delete_error_iff_absent (data : List String) (f : String)
    (hnd : data.Nodup) :
    ((∃ e, memDelete data f = .error e) ↔ memHasRun data f = false) ∧
    (memHasRun data f = true →
      memDelete data f = .ok (data.erase f) ∧ memHasRun (data.erase f) f = false) := by
  unfold memDelete memHasRun
  by_cases hm : data.contains f
  · rw [if_pos hm]
    constructor
    · constructor
      · intro ⟨e, he⟩
        exact absurd he (by simp)
      · intro hfalse
        rw [hm] at hfalse
        exact absurd hfalse (by simp)
    · intro _
      refine ⟨rfl, ?_⟩
      have : f ∉ data.erase f := by
        intro hmem
        exact absurd ((List.Nodup.mem_erase_iff hnd).mp hmem).1 (by simp)
      revert this
      cases hc : (data.erase f).contains f
      · intro _; rfl
      · intro hmem
        exact absurd (contains_true.mp hc) hmem
  · have hmf : data.contains f = false := by
      revert hm
      cases data.contains f <;> simp
    rw [if_neg (by rw [hmf]; simp)]
    constructor
    · constructor
      · intro _
        exact hmf
      · intro _
        exact ⟨_, rfl⟩
    · intro htrue
      rw [hmf] at htrue
      exact absurd htrue (by simp)

theorem memory_delete_error_iff_absent_witness :
    ((∃ e, memDelete ["a", "b"] "a" = .error e) ↔ memHasRun ["a", "b"] "a" = false) ∧
    (memHasRun ["a", "b"] "a" = true →
      memDelete ["a", "b"] "a" = .ok (["a", "b"].erase "a") ∧
      memHasRun (["a", "b"].erase "a") "a" = false) :=
  memory_delete_error_iff_absent ["a", "b"] "a" (by decide)

end Northward
